import Mathlib

/-!
Verification of the EMA core (`EMA.py`): a bounded-memory usage-pattern
tracker.  The Python class is shallowly embedded as a pure state-passing
model: every container of the `EMA` object becomes a field of `EMAState`,
every method a function `EMAState → ... → EMAState × ...`.

Modelling conventions:
* Python `str.split(',')` / `str.strip()` are embedded as character-list
  functions (`splitComma`, `pyStrip`) over `String.data`, with
  `Char.isWhitespace` standing for Python's whitespace test.
* Python `dict` (insertion-ordered, unique keys) is an association list
  kept in insertion order.
* `collections.deque(maxlen=m)` is a list that drops from the front when
  an append overflows the capacity (`dequeAppend`), and that keeps the
  last `m` elements when constructed from a longer list (`dequeTrunc`).
* The float estimation score `frequency * (1.0 / (1.0 + age))` is
  modelled as IEEE-754 binary64 arithmetic (53 significand bits,
  round-to-nearest, ties to even), with each value carried as an exact
  mantissa-times-power-of-two pair and each of CPython's roundings —
  int-to-double conversion, the addition `1.0 + age`, the division, the
  final multiplication — performed explicitly; `ZeroDivisionError` is an
  `Option` failure, and the theorems' hypotheses confine inputs to the
  region where no intermediate overflows past `2 ^ 1024` or falls below
  the normal range.
-/

/-- Characters of a Python name. Tool names are handled as character lists so
that all string processing is kernel-computable. -/
abbrev PyName := List Char

/-- Split a character list at every comma, mirroring Python `s.split(',')`
(which yields `n+1` chunks for `n` commas, including empty chunks). -/
def splitCommaAux : List Char → List Char → List (List Char)
  | [], acc => [acc.reverse]
  | c :: rest, acc =>
    if c = ',' then acc.reverse :: splitCommaAux rest []
    else splitCommaAux rest (c :: acc)

/-- Python `block.split(',')` on the characters of the block. -/
def splitComma (cs : List Char) : List (List Char) :=
  splitCommaAux cs []

/-- Python `str.strip()`: drop whitespace from both ends. -/
def pyStrip (cs : List Char) : List Char :=
  ((cs.dropWhile Char.isWhitespace).reverse.dropWhile Char.isWhitespace).reverse

/-- The trimmed non-blank names of a block string, exactly the list Python
iterates with `for name in block.split(',') if name.strip()` (`EMA.py`
lines 67-68 and 108). -/
def nonblankNames (block : String) : List PyName :=
  ((splitComma block.data).map pyStrip).filter (fun s => s ≠ [])

/-- Strict lexicographic order on symbol tuples: Python `tuple < tuple` for
tuples of ints (a proper prefix sorts first). -/
def lexLtB : List Nat → List Nat → Bool
  | [], [] => false
  | [], _ :: _ => true
  | _ :: _, [] => false
  | a :: as, b :: bs => a < b || (a == b && lexLtB as bs)

/-- Insert `a` into `l` before the first element `b` with `le a b`
(keeping `a` after everything strictly required to stay before it). -/
def orderedInsert (le : α → α → Bool) (a : α) : List α → List α
  | [] => [a]
  | b :: l => if le a b then a :: b :: l else b :: orderedInsert le a l

/-- A stable sort with respect to the boolean comparator `le`, modelling
Python's (stable) `list.sort` / `sorted`.  On every list whose comparator
is antisymmetric — which holds for all comparators below on tables with
distinct keys — a stable sort is unique, so this agrees with Python's
timsort. -/
def pySorted (le : α → α → Bool) : List α → List α
  | [] => []
  | a :: l => orderedInsert le a (pySorted le l)

/-- Ordered-dictionary lookup in an association list (Python `d[key]` /
`key in d`). -/
def alookup [DecidableEq α] (key : α) : List (α × β) → Option β
  | [] => none
  | (k, v) :: rest => if k = key then some v else alookup key rest

/-- An entry of the frequency table: subsequence tuple, `frequency`, and
`last_usage` (the value dict of `EMA.frequency_table`). -/
abbrev FTEntry := List Nat × Nat × Nat

/-- The whole mutable state of an `EMA` object (`EMA.__init__`,
lines 35-51).  `containers_dir` is a boundary concern and is not part of
the in-memory model. -/
structure EMAState where
  k : Nat
  t : Nat
  nr : Nat
  nf : Nat
  ns : Nat
  name_to_number : List (PyName × Nat)
  number_to_name : List (Nat × PyName)
  next_number : Nat
  recent_blocks : List (List Nat)
  frequency_table : List FTEntry
  all_blocks : List String
  current_block_index : Nat
  recent_subsequences : List (List (List Nat))
  recent_single_tools : List PyName
deriving DecidableEq

/-- A freshly constructed `EMA(k, t, nr, nf, ns)` with no containers dir. -/
def EMA.mkFresh (k t nr nf ns : Nat) : EMAState :=
  { k := k, t := t, nr := nr, nf := nf, ns := ns,
    name_to_number := [], number_to_name := [], next_number := 1,
    recent_blocks := [], frequency_table := [], all_blocks := [],
    current_block_index := 0, recent_subsequences := [],
    recent_single_tools := [] }

/-- `EMA.get_number_for_name` (lines 57-63): return the existing id or
assign `next_number` and extend both maps. -/
def get_number_for_name (s : EMAState) (name : PyName) : EMAState × Nat :=
  match alookup name s.name_to_number with
  | some num => (s, num)
  | none =>
    let num := s.next_number
    ({ s with
        name_to_number := s.name_to_number ++ [(name, num)],
        number_to_name := s.number_to_name ++ [(num, name)],
        next_number := num + 1 }, num)

/-- Resolve a list of names left to right, threading the symbol table, as
the generator expression in `EMA.block_to_sequence` does. -/
def block_to_sequence_names (s : EMAState) : List PyName → EMAState × List Nat
  | [] => (s, [])
  | name :: rest =>
    let r := get_number_for_name s name
    let q := block_to_sequence_names r.1 rest
    (q.1, r.2 :: q.2)

/-- `EMA.block_to_sequence` (lines 65-68): resolve each trimmed non-blank
name of the block to its number, in order, threading the symbol table. -/
def block_to_sequence (s : EMAState) (block : String) : EMAState × List Nat :=
  block_to_sequence_names s (nonblankNames block)

/-- All increasing index combinations of size `l`, in the emission order of
`itertools.combinations` (combinations containing the head come first). -/
def combos : Nat → List α → List (List α)
  | 0, _ => [[]]
  | _ + 1, [] => []
  | l + 1, x :: xs => (combos l xs).map (x :: ·) ++ combos (l + 1) xs

/-- `EMA.generate_subsequences` (lines 70-87): all ordered subsequences of
length `min_length .. n`, grouped by increasing length. -/
def generate_subsequences (sequence : List Nat) (min_length : Nat) : List (List Nat) :=
  (List.range' min_length (sequence.length + 1 - min_length)).flatMap
    (fun l => combos l sequence)

/-- Append to a `deque(maxlen=cap)`: push at the back and drop from the
front anything beyond the capacity. -/
def dequeAppend (cap : Nat) (xs : List α) (x : α) : List α :=
  let ys := xs ++ [x]
  if cap < ys.length then ys.drop (ys.length - cap) else ys

/-- Construct `deque(iterable, maxlen=cap)`: keep only the last `cap`
elements. -/
def dequeTrunc (cap : Nat) (xs : List α) : List α :=
  if cap < xs.length then xs.drop (xs.length - cap) else xs

/-- One `frequency_table` accumulation step for subsequence `sub` of block
`i` (`EMA._update_frequency_table` lines 143-151): a fresh entry starts at
`{frequency := 0, last_usage := i}` and is immediately bumped to `(1, i)`;
an existing entry gets `frequency + 1` and `max last_usage i`. -/
def bumpFreq (i : Nat) (sub : List Nat) : List FTEntry → List FTEntry
  | [] => [(sub, 1, i)]
  | e :: rest =>
    if e.1 = sub then (e.1, e.2.1 + 1, max e.2.2 i) :: rest
    else e :: bumpFreq i sub rest

/-- `EMA._update_frequency_table` (lines 129-153): rebuild the table from
scratch by replaying every stored block in arrival order, re-converting it
through the (threaded) symbol table.  The `recent_subseq_set` computed at
lines 132-134 of the source is dead code (never read) and is omitted. -/
def updateStep (p : EMAState × List FTEntry × Nat) (block : String) :
    EMAState × List FTEntry × Nat :=
  let conv := block_to_sequence p.1 block
  let subs := generate_subsequences conv.2 1
  (conv.1, subs.foldl (fun ft sub => bumpFreq p.2.2 sub ft) p.2.1, p.2.2 + 1)

/-- The full rebuild of `EMA._update_frequency_table`: fold `updateStep`
over all stored blocks starting from an empty table and block index 0,
then install the rebuilt table. -/
def update_frequency_table (s : EMAState) : EMAState :=
  let r := s.all_blocks.foldl updateStep (s, ([], 0))
  { r.1 with frequency_table := r.2.1 }

/-- Fuel-bounded floor of the base-2 logarithm: `lg2fuel fuel n = ⌊log2 n⌋`
for every `n ≥ 1` with `n ≤ 2 ^ fuel` (so `n` itself is always enough
fuel). -/
def lg2fuel : Nat → Nat → Nat
  | 0, _ => 0
  | fuel + 1, n => if n < 2 then 0 else lg2fuel fuel (n / 2) + 1

/-- `⌊log2 n⌋` for `n ≥ 1`. -/
def lg2 (n : Nat) : Nat := lg2fuel n n

/-- Round a natural number to the nearest IEEE-754 binary64 value
(53 significand bits, round to nearest, ties to even), returned as a
mantissa and a power-of-two shift so that the value is exactly
`m * 2 ^ s`.  Integers below `2 ^ 53` are exact; above, the low
`⌊log2 n⌋ - 52` bits are rounded away.  This is the value of CPython's
int-to-double conversion; that conversion raises `OverflowError` once
the rounded value reaches `2 ^ 1024`, a region the eviction theorem's
hypotheses exclude. -/
def rnd53 (n : Nat) : Nat × Nat :=
  if n < 2 ^ 53 then (n, 0)
  else
    let s := lg2 n - 52
    let q := n / 2 ^ s
    let r := n % 2 ^ s
    (if 2 * r > 2 ^ s ∨ (2 * r = 2 ^ s ∧ q % 2 = 1) then q + 1 else q, s)

/-- The exact integer value of the binary64 double nearest a signed
integer (binary64 rounding is symmetric under negation). -/
def intFloat (n : Int) : Int :=
  let p := rnd53 n.natAbs
  (if n < 0 then -(p.1 : Int) else (p.1 : Int)) * (2 : Int) ^ p.2

/-- The correctly rounded binary64 reciprocal `1 / d` of a positive
integer, as a mantissa and a (negative) power-of-two exponent with value
`m * 2 ^ e`.  At a power of two the reciprocal is exact; otherwise `1/d`
lies strictly between `2 ^ (-(k+1))` and `2 ^ (-k)` for `k = ⌊log2 d⌋`,
so its 53-bit mantissa is `2 ^ (k+53) / d` rounded to nearest with ties
to even. -/
def recip53 (d : Nat) : Nat × Int :=
  let k := lg2 d
  if d = 2 ^ k then (2 ^ 52, -(k + 52 : Int))
  else
    let q := 2 ^ (k + 53) / d
    let r := 2 ^ (k + 53) % d
    (if 2 * r > d ∨ (2 * r = d ∧ q % 2 = 1) then q + 1 else q, -(k + 53 : Int))

/-- `EMA.estimation_function` (lines 199-210) in IEEE-754 binary64,
exactly as CPython evaluates `frequency * (1.0 / (1.0 + age))` with int
`frequency` and int `age = current_index - last_usage`: `age` is
converted to a double (one rounding), added to `1.0` (one rounding of
the exact integer sum, since both operands are integer-valued doubles),
the reciprocal is one correctly rounded division, and the final product
converts `frequency` to a double (one rounding) and then rounds the
exact product once — scaling by powers of two is exact, so rounding the
mantissa product is the IEEE multiplication.  The score is returned as
an exact signed `mantissa * 2 ^ exponent` pair; `none` is Python's
`ZeroDivisionError`, raised exactly when the rounded `1.0 + age` is
zero (i.e. `last_usage = current_index + 1`).  The model is faithful
whenever every intermediate stays inside the binary64 normal range and
below the `OverflowError` threshold `2 ^ 1024`; the eviction theorem's
hypotheses (`0 ≤ age` and `frequency`, `age` at most `2 ^ 1020`)
guarantee that. -/
def estimation_function (frequency last_usage current_index : Nat) :
    Option (Int × Int) :=
  let age : Int := (current_index : Int) - (last_usage : Int)
  let D : Int := intFloat (1 + intFloat age)
  if D = 0 then none
  else
    let r := recip53 D.natAbs
    let f := rnd53 frequency
    let p := rnd53 (f.1 * r.1)
    some ((if D < 0 then -(p.1 : Int) else (p.1 : Int)),
      (f.2 : Int) + r.2 + (p.2 : Int))

/-- The exact rational value of a signed mantissa-exponent pair (proof
side only; comparisons inside the model are done by `fleB`). -/
def fval2 (p : Int × Int) : ℚ := (p.1 : ℚ) * (2 : ℚ) ^ p.2

/-- Value comparison of two mantissa-exponent pairs by integer
arithmetic: shift both mantissas to the smaller exponent and compare.
Python compares the float values themselves; two pairs denote the same
float exactly when their values coincide. -/
def fleB (a b : Int × Int) : Bool :=
  decide (a.1 * 2 ^ (a.2 - min a.2 b.2).toNat ≤ b.1 * 2 ^ (b.2 - min a.2 b.2).toNat)

/-- The binary64 estimation score of a table entry, as its exact
rational value (proof side).  The `getD` default is never consulted on a
table Python can sort: every reachable table has
`last_usage ≤ current_block_index`, and the eviction theorem proves the
score is `some` on its whole domain. -/
def b64score (c : Nat) (e : FTEntry) : ℚ :=
  fval2 ((estimation_function e.2.1 e.2.2 c).getD (0, 0))

/-- The ascending order used by eviction: Python `sort(key=lambda x: (x[2], x[0]))`
on `(binary64 estimation score, subsequence tuple)`, score compared by
value. -/
def evictLe (c : Nat) (e1 e2 : FTEntry) : Bool :=
  let s1 := (estimation_function e1.2.1 e1.2.2 c).getD (0, 0)
  let s2 := (estimation_function e2.2.1 e2.2.2 c).getD (0, 0)
  (fleB s1 s2 && !fleB s2 s1)
    || (fleB s1 s2 && fleB s2 s1 && (lexLtB e1.1 e2.1 || e1.1 == e2.1))

/-- `EMA._evict_from_frequency_table` (lines 212-243): sort all entries
ascending by `(estimation score, subsequence)` and delete the keys of the
first `len - t` of them; the surviving entries keep their table order. -/
def evict_from_frequency_table (s : EMAState) : EMAState :=
  if s.frequency_table.length ≤ s.t then s
  else
    let sorted := pySorted (evictLe s.current_block_index) s.frequency_table
    let toRemove := sorted.take (s.frequency_table.length - s.t)
    { s with frequency_table :=
        s.frequency_table.filter (fun e => toRemove.all (fun r => !(r.1 == e.1))) }

/-- `EMA.add_block` (lines 93-127): convert the block, return unchanged if
it has no non-blank names, otherwise append to the history, the recency
window, the single-tool recency deque and the recent-subsequence cache,
then rebuild the frequency table and evict if it exceeds `t`. -/
def add_block (s : EMAState) (block : String) : EMAState :=
  let conv := block_to_sequence s block
  let s1 := conv.1
  let sequence := conv.2
  if sequence = [] then s
  else
    let all_blocks := s1.all_blocks ++ [block]
    let s2 := { s1 with
      all_blocks := all_blocks,
      current_block_index := all_blocks.length - 1,
      recent_blocks := dequeAppend s1.k s1.recent_blocks sequence,
      recent_single_tools := (nonblankNames block).foldl
        (fun buf name =>
          dequeAppend (s1.ns * 10)
            (if name ∈ buf then buf.erase name else buf) name)
        s1.recent_single_tools,
      recent_subsequences := dequeAppend s1.k s1.recent_subsequences
        (generate_subsequences sequence 1) }
    let s3 := update_frequency_table s2
    if s3.t < s3.frequency_table.length then evict_from_frequency_table s3 else s3

/-- One `defaultdict(int)` counting step of `EMA.get_recent_subsequences`. -/
def bumpCount (sub : List Nat) : List (List Nat × Nat) → List (List Nat × Nat)
  | [] => [(sub, 1)]
  | e :: rest =>
    if e.1 = sub then (e.1, e.2 + 1) :: rest else e :: bumpCount sub rest

/-- `EMA.get_recent_subsequences` (lines 155-163): aggregate occurrence
counts of each subsequence over the recency window. -/
def get_recent_subsequences (s : EMAState) : List (List Nat × Nat) :=
  s.recent_subsequences.foldl
    (fun acc subs => subs.foldl (fun acc sub => bumpCount sub acc) acc) []

/-- The order used by `pick_from_recent`: Python
`sort(key=lambda x: (-x[1] * len(x[0]), x[0]))`, i.e. score
`frequency * length` descending, subsequence tuple ascending. -/
def pickRecLe (a b : List Nat × Nat) : Bool :=
  let s1 := a.2 * a.1.length
  let s2 := b.2 * b.1.length
  decide (s2 < s1) || (s1 == s2 && (lexLtB a.1 b.1 || a.1 == b.1))

/-- `EMA.pick_from_recent` (lines 165-197), reduced to the
`(sequence, frequency)` pairs of the returned records; the `names`,
`length` and `score` record fields are display values derived from the
pair and the symbol table and are dropped from the model. -/
def pick_from_recent (s : EMAState) (n : Nat) : List (List Nat × Nat) :=
  let subsequence_freq := get_recent_subsequences s
  if subsequence_freq = [] then []
  else (pySorted pickRecLe subsequence_freq).take n

/-- The order used by `pick_from_frequency`: Python
`sort(key=lambda x: (-x[1]['frequency'] * len(x[0]), x[0]))`. -/
def pickFreqLe (a b : FTEntry) : Bool :=
  let s1 := a.2.1 * a.1.length
  let s2 := b.2.1 * b.1.length
  decide (s2 < s1) || (s1 == s2 && (lexLtB a.1 b.1 || a.1 == b.1))

/-- `EMA.pick_from_frequency` (lines 245-289): rebuild the table, evict if
oversize, then return the top `n` entries by `frequency * length`
descending with ascending-tuple tie-break.  As with `pick_from_recent`,
only the `(sequence, frequency, last_usage)` content of the returned
records is modelled.  The rebuild/evict side effect is returned as the
first component. -/
def pick_from_frequency (s : EMAState) (n : Nat) : EMAState × List FTEntry :=
  let s1 := update_frequency_table s
  let s2 := if s1.t < s1.frequency_table.length
            then evict_from_frequency_table s1 else s1
  if s2.frequency_table = [] then (s2, [])
  else (s2, (pySorted pickFreqLe s2.frequency_table).take n)

/-- `EMA.get_recent_single_tools` (lines 291-306): the last `n` buffer
entries, most recent first.  Python's slice `tools_list[-n:]` is the whole
list when `n = 0`, which the model reproduces explicitly. -/
def get_recent_single_tools (s : EMAState) (n : Nat) : List PyName :=
  let tools_list := s.recent_single_tools
  let recent_n :=
    if n ≤ tools_list.length then
      (if n = 0 then tools_list else tools_list.drop (tools_list.length - n))
    else tools_list
  recent_n.reverse

/-! Basic facts about the stable sort. -/

theorem mem_orderedInsert {le : α → α → Bool} {a x : α} {l : List α} :
    x ∈ orderedInsert le a l ↔ x = a ∨ x ∈ l := by
  induction l with
  | nil => simp [orderedInsert]
  | cons b l ih =>
    simp only [orderedInsert]
    split
    · simp
    · simp only [List.mem_cons, ih]
      tauto

theorem perm_orderedInsert (le : α → α → Bool) (a : α) (l : List α) :
    (orderedInsert le a l).Perm (a :: l) := by
  induction l with
  | nil => simp [orderedInsert]
  | cons b l ih =>
    simp only [orderedInsert]
    split
    · exact List.Perm.refl _
    · exact (ih.cons b).trans (List.Perm.swap a b l)

theorem perm_pySorted (le : α → α → Bool) (l : List α) :
    (pySorted le l).Perm l := by
  induction l with
  | nil => simp [pySorted]
  | cons a l ih =>
    exact (perm_orderedInsert le a (pySorted le l)).trans (ih.cons a)

theorem pairwise_orderedInsert {le : α → α → Bool}
    (htrans : ∀ a b c, le a b = true → le b c = true → le a c = true)
    (htotal : ∀ a b, le a b || le b a) {a : α} {l : List α}
    (h : l.Pairwise (fun x y => le x y = true)) :
    (orderedInsert le a l).Pairwise (fun x y => le x y = true) := by
  induction l with
  | nil => simp [orderedInsert]
  | cons b l ih =>
    simp only [orderedInsert]
    split
    · rename_i hab
      refine List.Pairwise.cons ?_ h
      intro y hy
      rcases List.mem_cons.mp hy with rfl | hy
      · exact hab
      · rcases h with - | ⟨hb, -⟩
        exact htrans a b y hab (hb y hy)
    · rename_i hab
      have hba : le b a = true := by
        have := htotal a b
        simp [Bool.or_eq_true] at this
        rcases this with h1 | h1
        · exact absurd h1 hab
        · exact h1
      rcases h with - | ⟨hb, hl⟩
      refine List.Pairwise.cons ?_ (ih hl)
      intro y hy
      rcases mem_orderedInsert.mp hy with rfl | hy
      · exact hba
      · exact hb y hy

theorem pairwise_pySorted {le : α → α → Bool}
    (htrans : ∀ a b c, le a b = true → le b c = true → le a c = true)
    (htotal : ∀ a b, le a b || le b a) (l : List α) :
    (pySorted le l).Pairwise (fun x y => le x y = true) := by
  induction l with
  | nil => simp [pySorted]
  | cons a l ih => exact pairwise_orderedInsert htrans htotal ih

/-! Facts about the lexicographic tuple order. -/

theorem lexLtB_trans : ∀ {a b c : List Nat},
    lexLtB a b = true → lexLtB b c = true → lexLtB a c = true
  | [], _ :: _, _ :: _, _, _ => rfl
  | [], [], _, h1, _ => by simp [lexLtB] at h1
  | _, _ :: _, [], _, h2 => by simp [lexLtB] at h2
  | _ :: _, [], _, h1, _ => by simp [lexLtB] at h1
  | x :: as, y :: bs, z :: cs, h1, h2 => by
    simp only [lexLtB, Bool.or_eq_true, Bool.and_eq_true, beq_iff_eq,
      decide_eq_true_eq] at h1 h2 ⊢
    rcases h1 with h1 | ⟨rfl, h1⟩
    · rcases h2 with h2 | ⟨rfl, h2⟩
      · exact Or.inl (Nat.lt_trans h1 h2)
      · exact Or.inl h1
    · rcases h2 with h2 | ⟨rfl, h2⟩
      · exact Or.inl h2
      · exact Or.inr ⟨rfl, lexLtB_trans h1 h2⟩

theorem lexLtB_trichot : ∀ (a b : List Nat),
    lexLtB a b = true ∨ a = b ∨ lexLtB b a = true
  | [], [] => Or.inr (Or.inl rfl)
  | [], _ :: _ => Or.inl rfl
  | _ :: _, [] => Or.inr (Or.inr rfl)
  | x :: as, y :: bs => by
    rcases Nat.lt_trichotomy x y with h | rfl | h
    · exact Or.inl (by simp [lexLtB, h])
    · rcases lexLtB_trichot as bs with h | rfl | h
      · exact Or.inl (by simp [lexLtB, h])
      · exact Or.inr (Or.inl rfl)
      · exact Or.inr (Or.inr (by simp [lexLtB, h]))
    · exact Or.inr (Or.inr (by simp [lexLtB, h]))

/-- The shared shape of every comparator in the source: a primary score in
a linear order, ties broken by ascending tuple order on a key. -/
def keyedLe [LinearOrder β] (sc : α → β) (key : α → List Nat) (a b : α) : Bool :=
  decide (sc a < sc b) || (decide (sc a = sc b) && (lexLtB (key a) (key b) || key a == key b))

theorem keyedLe_trans [LinearOrder β] (sc : α → β) (key : α → List Nat)
    (a b c : α) (h1 : keyedLe sc key a b = true) (h2 : keyedLe sc key b c = true) :
    keyedLe sc key a c = true := by
  simp only [keyedLe, Bool.or_eq_true, Bool.and_eq_true, beq_iff_eq,
    decide_eq_true_eq] at h1 h2 ⊢
  rcases h1 with h1 | ⟨e1, k1⟩
  · rcases h2 with h2 | ⟨e2, k2⟩
    · exact Or.inl (lt_trans h1 h2)
    · exact Or.inl (e2 ▸ h1)
  · rcases h2 with h2 | ⟨e2, k2⟩
    · exact Or.inl (e1 ▸ h2)
    · refine Or.inr ⟨e1.trans e2, ?_⟩
      rcases k1 with k1 | k1
      · rcases k2 with k2 | k2
        · exact Or.inl (lexLtB_trans k1 k2)
        · exact Or.inl (k2 ▸ k1)
      · rcases k2 with k2 | k2
        · exact Or.inl (k1 ▸ k2)
        · exact Or.inr (k1.trans k2)

theorem keyedLe_total [LinearOrder β] (sc : α → β) (key : α → List Nat)
    (a b : α) : (keyedLe sc key a b || keyedLe sc key b a) = true := by
  simp only [keyedLe, Bool.or_eq_true, Bool.and_eq_true, beq_iff_eq,
    decide_eq_true_eq]
  rcases lt_trichotomy (sc a) (sc b) with h | h | h
  · exact Or.inl (Or.inl h)
  · rcases lexLtB_trichot (key a) (key b) with hk | hk | hk
    · exact Or.inl (Or.inr ⟨h, Or.inl hk⟩)
    · exact Or.inl (Or.inr ⟨h, Or.inr hk⟩)
    · exact Or.inr (Or.inr ⟨h.symm, Or.inl hk⟩)
  · exact Or.inr (Or.inl h)

theorem keyedLe_strict [LinearOrder β] (sc : α → β) (key : α → List Nat)
    (a b : α) (h : keyedLe sc key a b = true) (hne : key a ≠ key b) :
    sc a < sc b ∨ (sc a = sc b ∧ lexLtB (key a) (key b) = true) := by
  simp only [keyedLe, Bool.or_eq_true, Bool.and_eq_true, beq_iff_eq,
    decide_eq_true_eq] at h
  rcases h with h | ⟨e, k⟩
  · exact Or.inl h
  · rcases k with k | k
    · exact Or.inr ⟨e, k⟩
    · exact absurd k hne

theorem fleB_iff (a b : Int × Int) : fleB a b = true ↔ fval2 a ≤ fval2 b := by
  unfold fleB fval2
  set e := min a.2 b.2 with he
  obtain ⟨ma, hma⟩ : ∃ m : Nat, a.2 = (m : Int) + e := ⟨(a.2 - e).toNat, by omega⟩
  obtain ⟨mb, hmb⟩ : ∃ m : Nat, b.2 = (m : Int) + e := ⟨(b.2 - e).toNat, by omega⟩
  have hta : (a.2 - e).toNat = ma := by omega
  have htb : (b.2 - e).toNat = mb := by omega
  have h2 : (0 : ℚ) < (2 : ℚ) ^ e := by positivity
  rw [hta, htb, decide_eq_true_eq, hma, hmb,
    zpow_add₀ (by norm_num : (2 : ℚ) ≠ 0),
    zpow_add₀ (by norm_num : (2 : ℚ) ≠ 0), zpow_natCast, zpow_natCast,
    ← mul_assoc, ← mul_assoc, mul_le_mul_right h2]
  constructor
  · intro h; exact_mod_cast h
  · intro h; exact_mod_cast h

theorem fleB_eq_decide (a b : Int × Int) :
    fleB a b = decide (fval2 a ≤ fval2 b) := by
  rw [Bool.eq_iff_iff, fleB_iff, decide_eq_true_eq]

theorem evictLe_eq_keyedLe (c : Nat) :
    evictLe c = keyedLe (b64score c) Prod.fst := by
  funext a b
  simp only [evictLe, keyedLe, b64score, fleB_eq_decide]
  rw [Bool.eq_iff_iff]
  simp only [Bool.or_eq_true, Bool.and_eq_true, Bool.not_eq_true',
    decide_eq_false_iff_not, decide_eq_true_eq]
  constructor
  · rintro (⟨h1, h2⟩ | ⟨⟨h1, h2⟩, ht⟩)
    · exact Or.inl (lt_of_le_not_le h1 h2)
    · exact Or.inr ⟨le_antisymm h1 h2, ht⟩
  · rintro (h | ⟨h, ht⟩)
    · exact Or.inl ⟨le_of_lt h, not_le_of_lt h⟩
    · exact Or.inr ⟨⟨le_of_eq h, ge_of_eq h⟩, ht⟩

theorem pickRecLe_eq_keyedLe :
    pickRecLe = keyedLe (fun a : List Nat × Nat => -((a.2 * a.1.length : Nat) : ℤ)) Prod.fst := by
  funext a b
  simp only [pickRecLe, keyedLe]
  have h1 : decide (b.2 * b.1.length < a.2 * a.1.length)
      = decide (-((a.2 * a.1.length : Nat) : ℤ) < -((b.2 * b.1.length : Nat) : ℤ)) := by
    simp only [decide_eq_decide]
    omega
  have h2 : (a.2 * a.1.length == b.2 * b.1.length)
      = decide (-((a.2 * a.1.length : Nat) : ℤ) = -((b.2 * b.1.length : Nat) : ℤ)) := by
    rw [Bool.eq_iff_iff]
    simp only [beq_iff_eq, decide_eq_true_eq]
    omega
  rw [h1, h2]

theorem pickFreqLe_eq_keyedLe :
    pickFreqLe = keyedLe (fun a : FTEntry => -((a.2.1 * a.1.length : Nat) : ℤ)) Prod.fst := by
  funext a b
  simp only [pickFreqLe, keyedLe]
  have h1 : decide (b.2.1 * b.1.length < a.2.1 * a.1.length)
      = decide (-((a.2.1 * a.1.length : Nat) : ℤ) < -((b.2.1 * b.1.length : Nat) : ℤ)) := by
    simp only [decide_eq_decide]
    omega
  have h2 : (a.2.1 * a.1.length == b.2.1 * b.1.length)
      = decide (-((a.2.1 * a.1.length : Nat) : ℤ) = -((b.2.1 * b.1.length : Nat) : ℤ)) := by
    rw [Bool.eq_iff_iff]
    simp only [beq_iff_eq, decide_eq_true_eq]
    omega
  rw [h1, h2]

/-- C8: a block with no non-blank names (empty string, or only commas and
whitespace) makes `add_block` a no-op: the whole state — symbol maps, next
id, recency window, frequency table, block history, block index,
subsequence cache and single-tool buffer — is returned unchanged. -/
theorem c8_add_block_blank_noop (s : EMAState) (block : String)
    (h : nonblankNames block = []) : add_block s block = s := by
  simp [add_block, block_to_sequence, block_to_sequence_names, h]

/-- Witness for C8 at the concrete blank block consisting of commas and
whitespace only. -/
theorem c8_witness :
    nonblankNames " ,  ,," = [] ∧
    add_block (EMA.mkFresh 10 50 2 5 5) " ,  ,," = EMA.mkFresh 10 50 2 5 5 :=
  ⟨by decide, c8_add_block_blank_noop (EMA.mkFresh 10 50 2 5 5) " ,  ,," (by decide)⟩

/-- C10: when the single-tool buffer is non-empty,
`get_recent_single_tools 0` returns the whole buffer most-recent-first
(Python `lst[-0:]` is the whole list), not the empty list. -/
theorem c10_get_recent_zero (s : EMAState) (h : s.recent_single_tools ≠ []) :
    get_recent_single_tools s 0 = s.recent_single_tools.reverse ∧
    get_recent_single_tools s 0 ≠ [] := by
  refine ⟨by simp [get_recent_single_tools], ?_⟩
  simp [get_recent_single_tools, h]

/-- Witness for C10 on a one-element buffer. -/
theorem c10_witness :
    ({ EMA.mkFresh 1 1 1 1 1 with recent_single_tools := [['A']] } : EMAState).recent_single_tools ≠ [] ∧
    (get_recent_single_tools { EMA.mkFresh 1 1 1 1 1 with recent_single_tools := [['A']] } 0
        = ({ EMA.mkFresh 1 1 1 1 1 with recent_single_tools := [['A']] } : EMAState).recent_single_tools.reverse ∧
      get_recent_single_tools { EMA.mkFresh 1 1 1 1 1 with recent_single_tools := [['A']] } 0 ≠ []) :=
  ⟨by decide, c10_get_recent_zero _ (by decide)⟩

/-! Facts about the subsequence generator. -/

theorem length_combos (l : Nat) (xs : List α) :
    (combos l xs).length = xs.length.choose l := by
  induction xs generalizing l with
  | nil => cases l <;> simp [combos]
  | cons x xs ih =>
    cases l with
    | zero => simp [combos]
    | succ l =>
      simp [combos, ih, Nat.choose_succ_succ]

theorem mem_combos {l : Nat} {xs ys : List α} :
    ys ∈ combos l xs ↔ ys.Sublist xs ∧ ys.length = l := by
  induction xs generalizing l ys with
  | nil =>
    cases l with
    | zero =>
      simp only [combos, List.mem_singleton, List.sublist_nil]
      constructor
      · rintro rfl; exact ⟨rfl, rfl⟩
      · rintro ⟨rfl, -⟩; rfl
    | succ l =>
      simp only [combos, List.not_mem_nil, false_iff, not_and, List.sublist_nil]
      rintro rfl h
      simp at h
  | cons x xs ih =>
    cases l with
    | zero =>
      simp only [combos, List.mem_singleton]
      constructor
      · rintro rfl; exact ⟨List.nil_sublist _, rfl⟩
      · rintro ⟨-, h⟩; exact List.eq_nil_of_length_eq_zero h
    | succ l =>
      simp only [combos, List.mem_append, List.mem_map]
      constructor
      · rintro (⟨zs, hz, rfl⟩ | h)
        · have hm := ih.mp hz
          exact ⟨List.Sublist.cons₂ x hm.1, by simp [hm.2]⟩
        · have hm := ih.mp h
          exact ⟨hm.1.cons x, hm.2⟩
      · rintro ⟨hsub, hlen⟩
        rcases List.sublist_cons_iff.mp hsub with h | ⟨r, rfl, hr⟩
        · exact Or.inr (ih.mpr ⟨h, hlen⟩)
        · exact Or.inl ⟨r, ih.mpr ⟨hr, by simpa using hlen⟩, rfl⟩

theorem nodup_combos (l : Nat) {xs : List α} (h : xs.Nodup) :
    (combos l xs).Nodup := by
  induction xs generalizing l with
  | nil => cases l <;> simp [combos]
  | cons x xs ih =>
    cases l with
    | zero => simp [combos]
    | succ l =>
      rcases List.nodup_cons.mp h with ⟨hx, hxs⟩
      simp only [combos]
      refine List.nodup_append.mpr ⟨?_, ih _ hxs, ?_⟩
      · exact (ih _ hxs).map (fun a b hab => by simpa using hab)
      · intro ys hy1 hy2
        rcases List.mem_map.mp hy1 with ⟨zs, -, rfl⟩
        have hm := (mem_combos.mp hy2).1
        exact hx (hm.subset (List.mem_cons_self x zs))

theorem list_sum_range (f : Nat → Nat) (n : Nat) :
    ((List.range n).map f).sum = ∑ i ∈ Finset.range n, f i := by
  induction n with
  | zero => simp
  | succ n ih => simp [List.range_succ, Finset.sum_range_succ, ih]

theorem length_generate (sequence : List Nat) :
    (generate_subsequences sequence 1).length = 2 ^ sequence.length - 1 := by
  simp only [generate_subsequences, List.length_flatMap]
  have h1 : sequence.length + 1 - 1 = sequence.length := by omega
  rw [h1, List.range'_eq_map_range]
  have h2 : (((List.range sequence.length).map (fun x => 1 + x)).map
      (List.length ∘ fun l => combos l sequence)).sum
      = ((List.range sequence.length).map
          (fun x => sequence.length.choose (x + 1))).sum := by
    rw [List.map_map]
    congr 1
    apply List.map_congr_left
    intro a _
    simp [length_combos, Nat.add_comm]
  rw [h2, list_sum_range]
  have h3 := Finset.sum_range_succ' (fun i => sequence.length.choose i) sequence.length
  have h4 := Nat.sum_range_choose sequence.length
  simp only [Nat.choose_zero_right] at h3
  omega

theorem mem_generate {seq s : List Nat} (h : s ∈ generate_subsequences seq 1) :
    s.Sublist seq ∧ s ≠ [] := by
  simp only [generate_subsequences, List.mem_flatMap] at h
  rcases h with ⟨l, hl, hs⟩
  have hm := mem_combos.mp hs
  have hl1 : 1 ≤ l := (List.mem_range'_1.mp hl).1
  refine ⟨hm.1, ?_⟩
  intro e
  rw [e] at hm
  simp only [List.length_nil] at hm
  omega

theorem nodup_generate {seq : List Nat} (h : seq.Nodup) :
    (generate_subsequences seq 1).Nodup := by
  simp only [generate_subsequences]
  rw [List.nodup_flatMap]
  refine ⟨fun l _ => nodup_combos l h, ?_⟩
  have hr : (List.range' 1 (seq.length + 1 - 1)).Nodup := List.nodup_range' _ _
  refine hr.imp ?_
  intro a b hab ys hy1 hy2
  have h1 := (mem_combos.mp hy1).2
  have h2 := (mem_combos.mp hy2).2
  exact hab (h1 ▸ h2 ▸ rfl)

/-- C5: for a sequence of distinct symbols, `generate_subsequences seq 1`
yields exactly `2 ^ n - 1` tuples, each a strictly order-preserving
selection (a sublist) of the sequence, with no duplicates and no empty
tuple. -/
theorem c5_generate_subsequences (seq : List Nat) (h : seq.Nodup) :
    (generate_subsequences seq 1).length = 2 ^ seq.length - 1 ∧
    (∀ s ∈ generate_subsequences seq 1, s.Sublist seq ∧ s ≠ []) ∧
    (generate_subsequences seq 1).Nodup :=
  ⟨length_generate seq, fun _ hs => mem_generate hs, nodup_generate h⟩

/-- Witness for C5 on the concrete three-symbol sequence `[1, 2, 3]`. -/
theorem c5_witness :
    ([1, 2, 3] : List Nat).Nodup ∧
    ((generate_subsequences [1, 2, 3] 1).length = 2 ^ ([1, 2, 3] : List Nat).length - 1 ∧
     (∀ s ∈ generate_subsequences [1, 2, 3] 1, s.Sublist [1, 2, 3] ∧ s ≠ []) ∧
     (generate_subsequences [1, 2, 3] 1).Nodup) :=
  ⟨by decide, c5_generate_subsequences [1, 2, 3] (by decide)⟩

/-! Frame lemmas: which fields each operation can touch. -/

theorem gnfn_shape (s : EMAState) (name : PyName) :
    ∃ a b c, (get_number_for_name s name).1
      = { s with name_to_number := a, number_to_name := b, next_number := c } := by
  unfold get_number_for_name
  split
  · exact ⟨s.name_to_number, s.number_to_name, s.next_number, rfl⟩
  · exact ⟨_, _, _, rfl⟩

theorem bseq_shape (names : List PyName) : ∀ (s : EMAState),
    ∃ a b c, (block_to_sequence_names s names).1
      = { s with name_to_number := a, number_to_name := b, next_number := c } := by
  induction names with
  | nil => intro s; exact ⟨_, _, _, rfl⟩
  | cons n rest ih =>
    intro s
    obtain ⟨a, b, c, h1⟩ := gnfn_shape s n
    obtain ⟨a2, b2, c2, h2⟩ := ih ((get_number_for_name s n).1)
    refine ⟨a2, b2, c2, ?_⟩
    have h0 : (block_to_sequence_names s (n :: rest)).1
        = (block_to_sequence_names (get_number_for_name s n).1 rest).1 := rfl
    rw [h0, h2, h1]

theorem updateFold_shape (blocks : List String) :
    ∀ (p : EMAState × List FTEntry × Nat),
    ∃ a b c, (blocks.foldl updateStep p).1
      = { p.1 with name_to_number := a, number_to_name := b, next_number := c } := by
  induction blocks with
  | nil => intro p; exact ⟨_, _, _, rfl⟩
  | cons blk rest ih =>
    intro p
    obtain ⟨a, b, c, h1⟩ := bseq_shape (nonblankNames blk) p.1
    obtain ⟨a2, b2, c2, h2⟩ := ih (updateStep p blk)
    refine ⟨a2, b2, c2, ?_⟩
    have h0 : (updateStep p blk).1 = (block_to_sequence_names p.1 (nonblankNames blk)).1 := rfl
    rw [List.foldl_cons, h2, h0, h1]

theorem update_shape (s : EMAState) :
    ∃ a b c d, update_frequency_table s
      = { s with name_to_number := a, number_to_name := b, next_number := c,
                 frequency_table := d } := by
  obtain ⟨a, b, c, h⟩ := updateFold_shape s.all_blocks (s, ([], 0))
  refine ⟨a, b, c, (s.all_blocks.foldl updateStep (s, ([], 0))).2.1, ?_⟩
  have h0 : update_frequency_table s
      = { (s.all_blocks.foldl updateStep (s, ([], 0))).1 with
          frequency_table := (s.all_blocks.foldl updateStep (s, ([], 0))).2.1 } := rfl
  rw [h0, h]

theorem evict_shape (s : EMAState) :
    ∃ d, evict_from_frequency_table s = { s with frequency_table := d } := by
  unfold evict_from_frequency_table
  split
  · exact ⟨s.frequency_table, rfl⟩
  · exact ⟨_, rfl⟩

/-! Keys of the rebuilt frequency table are distinct. -/

theorem keys_bumpFreq (i : Nat) (sub : List Nat) (ft : List FTEntry) :
    (bumpFreq i sub ft).map Prod.fst
      = if sub ∈ ft.map Prod.fst then ft.map Prod.fst
        else ft.map Prod.fst ++ [sub] := by
  induction ft with
  | nil => simp [bumpFreq]
  | cons e ft ih =>
    by_cases h : e.1 = sub
    · simp [bumpFreq, h]
    · by_cases hm : sub ∈ ft.map Prod.fst
      · simp [bumpFreq, h, ih, hm, List.mem_cons, Ne.symm h]
      · simp [bumpFreq, h, ih, hm, List.mem_cons, Ne.symm h]

theorem nodup_keys_bumpFreq (i : Nat) (sub : List Nat) {ft : List FTEntry}
    (h : (ft.map Prod.fst).Nodup) :
    ((bumpFreq i sub ft).map Prod.fst).Nodup := by
  rw [keys_bumpFreq]
  split
  · exact h
  · rename_i hm
    simp [List.nodup_append, h, hm]

theorem nodup_keys_bumpFold (i : Nat) (subs : List (List Nat)) :
    ∀ {ft : List FTEntry}, (ft.map Prod.fst).Nodup →
    ((subs.foldl (fun ft sub => bumpFreq i sub ft) ft).map Prod.fst).Nodup := by
  induction subs with
  | nil => intro ft h; exact h
  | cons sub subs ih => intro ft h; exact ih (nodup_keys_bumpFreq i sub h)

theorem nodup_keys_updateFold (blocks : List String) :
    ∀ (p : EMAState × List FTEntry × Nat), (p.2.1.map Prod.fst).Nodup →
    (((blocks.foldl updateStep p).2.1).map Prod.fst).Nodup := by
  induction blocks with
  | nil => intro p h; exact h
  | cons blk rest ih =>
    intro p h
    exact ih (updateStep p blk) (nodup_keys_bumpFold _ _ h)

theorem nodup_keys_update (s : EMAState) :
    (((update_frequency_table s).frequency_table).map Prod.fst).Nodup := by
  have h := nodup_keys_updateFold s.all_blocks (s, ([], 0)) (by simp)
  exact h

/-! Characterisation of eviction. -/

theorem length_filter_add_not (p : α → Bool) (l : List α) :
    (l.filter p).length + (l.filter (fun a => !(p a))).length = l.length := by
  induction l with
  | nil => simp
  | cons a l ih =>
    by_cases h : p a <;> simp [List.filter_cons, h] <;> omega

/-- The strict ascending eviction order the code realises: smaller
binary64 estimation score first, ties on the score value broken by
ascending lexicographic order on the subsequence tuple. -/
def evictLt (c : Nat) (e1 e2 : FTEntry) : Prop :=
  b64score c e1 < b64score c e2 ∨
    (b64score c e1 = b64score c e2 ∧ lexLtB e1.1 e2.1 = true)

theorem lg2fuel_le : ∀ (fuel n : Nat), 1 ≤ n → n ≤ fuel → 2 ^ lg2fuel fuel n ≤ n := by
  intro fuel
  induction fuel with
  | zero => intro n h1 h2; omega
  | succ fuel ih =>
    intro n h1 h2
    by_cases h : n < 2
    · simp only [lg2fuel, if_pos h, pow_zero]; omega
    · simp only [lg2fuel, if_neg h]
      have hrec := ih (n / 2) (by omega) (by omega)
      rw [pow_succ]
      omega

theorem rnd53_fst_pos {n : Nat} (h : 1 ≤ n) : 1 ≤ (rnd53 n).1 := by
  unfold rnd53
  by_cases hs : n < 2 ^ 53
  · rw [if_pos hs]; exact h
  · rw [if_neg hs]
    have hlg : 2 ^ lg2 n ≤ n := lg2fuel_le n n h le_rfl
    have hle : 2 ^ (lg2 n - 52) ≤ n :=
      le_trans (Nat.pow_le_pow_right (by omega) (by omega)) hlg
    have hq : 1 ≤ n / 2 ^ (lg2 n - 52) :=
      (Nat.one_le_div_iff (pow_pos (by omega) _)).mpr hle
    dsimp only
    split <;> omega

theorem intFloat_nonneg {n : Int} (h : 0 ≤ n) : 0 ≤ intFloat n := by
  unfold intFloat
  dsimp only
  rw [if_neg (by omega)]
  positivity

theorem intFloat_pos {n : Int} (h : 0 < n) : 0 < intFloat n := by
  unfold intFloat
  dsimp only
  rw [if_neg (by omega)]
  have h1 : 1 ≤ (rnd53 n.natAbs).1 := rnd53_fst_pos (by omega)
  have h2 : (0 : Int) < ((rnd53 n.natAbs).1 : Int) := by exact_mod_cast h1
  exact mul_pos h2 (pow_pos (by norm_num) _)

/-- On the claim's domain (`last_usage ≤ current_block_index`) the score
is always defined: the rounded `1.0 + age` is a positive integer, so no
`ZeroDivisionError` arises. -/
theorem estimation_isSome_of_le {f lu c : Nat} (h : lu ≤ c) :
    (estimation_function f lu c).isSome = true := by
  unfold estimation_function
  have hA : 0 ≤ intFloat ((c : Int) - (lu : Int)) :=
    intFloat_nonneg (by omega)
  have hD : 0 < intFloat (1 + intFloat ((c : Int) - (lu : Int))) :=
    intFloat_pos (by omega)
  dsimp only
  rw [if_neg (by omega)]
  rfl

theorem evict_take_core (le : FTEntry → FTEntry → Bool)
    (htrans : ∀ a b c, le a b = true → le b c = true → le a c = true)
    (htotal : ∀ a b, (le a b || le b a) = true)
    (ft : List FTEntry) (hnd : (ft.map Prod.fst).Nodup) (n : Nat) (hn : n ≤ ft.length) :
    ((pySorted le ft).take n).length = n ∧
    (∀ e ∈ (pySorted le ft).take n, e ∈ ft) ∧
    (∀ e, e ∈ ft.filter (fun e => ((pySorted le ft).take n).all (fun r => !(r.1 == e.1)))
        ↔ e ∈ ft ∧ e.1 ∉ ((pySorted le ft).take n).map Prod.fst) ∧
    (ft.filter (fun e => ((pySorted le ft).take n).all (fun r => !(r.1 == e.1)))).length
        = ft.length - n ∧
    (∀ r ∈ (pySorted le ft).take n,
       ∀ e ∈ ft.filter (fun e => ((pySorted le ft).take n).all (fun r => !(r.1 == e.1))),
       le r e = true ∧ r.1 ≠ e.1) := by
  have hperm : (pySorted le ft).Perm ft := perm_pySorted le ft
  have hslen : (pySorted le ft).length = ft.length := hperm.length_eq
  have hlenrem : ((pySorted le ft).take n).length = n := by
    rw [List.length_take]; omega
  have hmemft : ∀ e ∈ (pySorted le ft).take n, e ∈ ft := fun e he =>
    hperm.mem_iff.mp ((List.take_sublist n _).subset he)
  have hsortednd : ((pySorted le ft).map Prod.fst).Nodup :=
    ((hperm.map Prod.fst).symm).nodup hnd
  have hremkeys : ((pySorted le ft).take n).map Prod.fst
      = ((pySorted le ft).map Prod.fst).take n := List.map_take _ _ _
  have hremnd : (((pySorted le ft).take n).map Prod.fst).Nodup := by
    rw [hremkeys]
    exact List.Nodup.sublist (List.take_sublist _ _) hsortednd
  have hmem : ∀ e,
      e ∈ ft.filter (fun e => ((pySorted le ft).take n).all (fun r => !(r.1 == e.1)))
        ↔ e ∈ ft ∧ e.1 ∉ ((pySorted le ft).take n).map Prod.fst := by
    intro e
    simp only [List.mem_filter, List.all_eq_true, Bool.not_eq_true', beq_eq_false_iff_ne,
      List.mem_map, ne_eq]
    constructor
    · rintro ⟨h1, h2⟩
      refine ⟨h1, ?_⟩
      rintro ⟨r, hr, hre⟩
      exact h2 r hr hre
    · rintro ⟨h1, h2⟩
      exact ⟨h1, fun r hr hre => h2 ⟨r, hr, hre⟩⟩
  have hKsub : ∀ x ∈ ((pySorted le ft).take n).map Prod.fst, x ∈ ft.map Prod.fst := by
    intro x hx
    rcases List.mem_map.mp hx with ⟨r, hr, rfl⟩
    exact List.mem_map.mpr ⟨r, hmemft r hr, rfl⟩
  have hcount : (ft.filter
      (fun e => decide (e.1 ∈ ((pySorted le ft).take n).map Prod.fst))).length = n := by
    have hmapf : (ft.filter (fun e => decide (e.1 ∈ ((pySorted le ft).take n).map Prod.fst))).map Prod.fst
        = (ft.map Prod.fst).filter (fun x => decide (x ∈ ((pySorted le ft).take n).map Prod.fst)) := by
      rw [List.filter_map]
      rfl
    have hpermK : ((ft.map Prod.fst).filter
        (fun x => decide (x ∈ ((pySorted le ft).take n).map Prod.fst))).Perm
        (((pySorted le ft).take n).map Prod.fst) := by
      rw [List.perm_ext_iff_of_nodup (hnd.filter _) hremnd]
      intro x
      simp only [List.mem_filter, decide_eq_true_eq]
      constructor
      · rintro ⟨-, h⟩; exact h
      · intro h; exact ⟨hKsub x h, h⟩
    have h1 := hpermK.length_eq
    have h2 : (ft.filter (fun e => decide (e.1 ∈ ((pySorted le ft).take n).map Prod.fst))).length
        = ((ft.filter (fun e => decide (e.1 ∈ ((pySorted le ft).take n).map Prod.fst))).map Prod.fst).length := by
      rw [List.length_map]
    rw [h2, hmapf, h1, List.length_map, hlenrem]
  have hpredeq : ∀ e ∈ ft,
      ((pySorted le ft).take n).all (fun r => !(r.1 == e.1))
        = !(decide (e.1 ∈ ((pySorted le ft).take n).map Prod.fst)) := by
    intro e _
    by_cases h : e.1 ∈ ((pySorted le ft).take n).map Prod.fst
    · rw [decide_eq_true h, Bool.not_true]
      rcases List.mem_map.mp h with ⟨r, hr, hre⟩
      refine Bool.eq_false_iff.mpr ?_
      intro hall
      have hcontra := List.all_eq_true.mp hall r hr
      simp [hre] at hcontra
    · rw [decide_eq_false h, Bool.not_false]
      rw [List.all_eq_true]
      intro r hr
      simp only [Bool.not_eq_true', beq_eq_false_iff_ne, ne_eq]
      intro hre
      exact h (List.mem_map.mpr ⟨r, hr, hre⟩)
  have hlenfilter : (ft.filter
      (fun e => ((pySorted le ft).take n).all (fun r => !(r.1 == e.1)))).length
      = ft.length - n := by
    rw [List.filter_congr hpredeq]
    have := length_filter_add_not
      (fun e : FTEntry => decide (e.1 ∈ ((pySorted le ft).take n).map Prod.fst)) ft
    omega
  refine ⟨hlenrem, hmemft, hmem, hlenfilter, ?_⟩
  intro r hr e he
  rcases (hmem e).mp he with ⟨heft, hekey⟩
  have hesorted : e ∈ (pySorted le ft) := hperm.mem_iff.mpr heft
  have hsplit : (pySorted le ft).take n ++ (pySorted le ft).drop n = pySorted le ft :=
    List.take_append_drop n _
  have hedrop : e ∈ (pySorted le ft).drop n := by
    rcases List.mem_append.mp (hsplit ▸ hesorted) with h | h
    · exact absurd (List.mem_map.mpr ⟨e, h, rfl⟩) hekey
    · exact h
  have hpair : (pySorted le ft).Pairwise (fun a b => le a b = true) :=
    pairwise_pySorted htrans htotal ft
  have hpair2 := hsplit ▸ hpair
  have hle := (List.pairwise_append.mp hpair2).2.2 r hr e hedrop
  refine ⟨hle, ?_⟩
  intro hre
  exact hekey (List.mem_map.mpr ⟨r, hr, hre⟩)

/-! Field-preservation simp lemmas derived from the shape lemmas. -/

@[simp] theorem evict_keeps_k (s : EMAState) :
    (evict_from_frequency_table s).k = s.k := by
  obtain ⟨d, h⟩ := evict_shape s
  rw [h]

@[simp] theorem evict_keeps_t (s : EMAState) :
    (evict_from_frequency_table s).t = s.t := by
  obtain ⟨d, h⟩ := evict_shape s
  rw [h]

@[simp] theorem evict_keeps_nr (s : EMAState) :
    (evict_from_frequency_table s).nr = s.nr := by
  obtain ⟨d, h⟩ := evict_shape s
  rw [h]

@[simp] theorem evict_keeps_nf (s : EMAState) :
    (evict_from_frequency_table s).nf = s.nf := by
  obtain ⟨d, h⟩ := evict_shape s
  rw [h]

@[simp] theorem evict_keeps_ns (s : EMAState) :
    (evict_from_frequency_table s).ns = s.ns := by
  obtain ⟨d, h⟩ := evict_shape s
  rw [h]

@[simp] theorem evict_keeps_name_to_number (s : EMAState) :
    (evict_from_frequency_table s).name_to_number = s.name_to_number := by
  obtain ⟨d, h⟩ := evict_shape s
  rw [h]

@[simp] theorem evict_keeps_number_to_name (s : EMAState) :
    (evict_from_frequency_table s).number_to_name = s.number_to_name := by
  obtain ⟨d, h⟩ := evict_shape s
  rw [h]

@[simp] theorem evict_keeps_next_number (s : EMAState) :
    (evict_from_frequency_table s).next_number = s.next_number := by
  obtain ⟨d, h⟩ := evict_shape s
  rw [h]

@[simp] theorem evict_keeps_recent_blocks (s : EMAState) :
    (evict_from_frequency_table s).recent_blocks = s.recent_blocks := by
  obtain ⟨d, h⟩ := evict_shape s
  rw [h]

@[simp] theorem evict_keeps_all_blocks (s : EMAState) :
    (evict_from_frequency_table s).all_blocks = s.all_blocks := by
  obtain ⟨d, h⟩ := evict_shape s
  rw [h]

@[simp] theorem evict_keeps_current_block_index (s : EMAState) :
    (evict_from_frequency_table s).current_block_index = s.current_block_index := by
  obtain ⟨d, h⟩ := evict_shape s
  rw [h]

@[simp] theorem evict_keeps_recent_subsequences (s : EMAState) :
    (evict_from_frequency_table s).recent_subsequences = s.recent_subsequences := by
  obtain ⟨d, h⟩ := evict_shape s
  rw [h]

@[simp] theorem evict_keeps_recent_single_tools (s : EMAState) :
    (evict_from_frequency_table s).recent_single_tools = s.recent_single_tools := by
  obtain ⟨d, h⟩ := evict_shape s
  rw [h]

@[simp] theorem update_keeps_k (s : EMAState) :
    (update_frequency_table s).k = s.k := by
  obtain ⟨a, b, c, d, h⟩ := update_shape s
  rw [h]

@[simp] theorem update_keeps_t (s : EMAState) :
    (update_frequency_table s).t = s.t := by
  obtain ⟨a, b, c, d, h⟩ := update_shape s
  rw [h]

@[simp] theorem update_keeps_nr (s : EMAState) :
    (update_frequency_table s).nr = s.nr := by
  obtain ⟨a, b, c, d, h⟩ := update_shape s
  rw [h]

@[simp] theorem update_keeps_nf (s : EMAState) :
    (update_frequency_table s).nf = s.nf := by
  obtain ⟨a, b, c, d, h⟩ := update_shape s
  rw [h]

@[simp] theorem update_keeps_ns (s : EMAState) :
    (update_frequency_table s).ns = s.ns := by
  obtain ⟨a, b, c, d, h⟩ := update_shape s
  rw [h]

@[simp] theorem update_keeps_recent_blocks (s : EMAState) :
    (update_frequency_table s).recent_blocks = s.recent_blocks := by
  obtain ⟨a, b, c, d, h⟩ := update_shape s
  rw [h]

@[simp] theorem update_keeps_all_blocks (s : EMAState) :
    (update_frequency_table s).all_blocks = s.all_blocks := by
  obtain ⟨a, b, c, d, h⟩ := update_shape s
  rw [h]

@[simp] theorem update_keeps_current_block_index (s : EMAState) :
    (update_frequency_table s).current_block_index = s.current_block_index := by
  obtain ⟨a, b, c, d, h⟩ := update_shape s
  rw [h]

@[simp] theorem update_keeps_recent_subsequences (s : EMAState) :
    (update_frequency_table s).recent_subsequences = s.recent_subsequences := by
  obtain ⟨a, b, c, d, h⟩ := update_shape s
  rw [h]

@[simp] theorem update_keeps_recent_single_tools (s : EMAState) :
    (update_frequency_table s).recent_single_tools = s.recent_single_tools := by
  obtain ⟨a, b, c, d, h⟩ := update_shape s
  rw [h]

@[simp] theorem bseq_keeps_k (s : EMAState) (names : List PyName) :
    ((block_to_sequence_names s names).1).k = s.k := by
  obtain ⟨a, b, c, h⟩ := bseq_shape names s
  rw [h]

@[simp] theorem bseq_keeps_t (s : EMAState) (names : List PyName) :
    ((block_to_sequence_names s names).1).t = s.t := by
  obtain ⟨a, b, c, h⟩ := bseq_shape names s
  rw [h]

@[simp] theorem bseq_keeps_nr (s : EMAState) (names : List PyName) :
    ((block_to_sequence_names s names).1).nr = s.nr := by
  obtain ⟨a, b, c, h⟩ := bseq_shape names s
  rw [h]

@[simp] theorem bseq_keeps_nf (s : EMAState) (names : List PyName) :
    ((block_to_sequence_names s names).1).nf = s.nf := by
  obtain ⟨a, b, c, h⟩ := bseq_shape names s
  rw [h]

@[simp] theorem bseq_keeps_ns (s : EMAState) (names : List PyName) :
    ((block_to_sequence_names s names).1).ns = s.ns := by
  obtain ⟨a, b, c, h⟩ := bseq_shape names s
  rw [h]

@[simp] theorem bseq_keeps_recent_blocks (s : EMAState) (names : List PyName) :
    ((block_to_sequence_names s names).1).recent_blocks = s.recent_blocks := by
  obtain ⟨a, b, c, h⟩ := bseq_shape names s
  rw [h]

@[simp] theorem bseq_keeps_all_blocks (s : EMAState) (names : List PyName) :
    ((block_to_sequence_names s names).1).all_blocks = s.all_blocks := by
  obtain ⟨a, b, c, h⟩ := bseq_shape names s
  rw [h]

@[simp] theorem bseq_keeps_current_block_index (s : EMAState) (names : List PyName) :
    ((block_to_sequence_names s names).1).current_block_index = s.current_block_index := by
  obtain ⟨a, b, c, h⟩ := bseq_shape names s
  rw [h]

@[simp] theorem bseq_keeps_recent_subsequences (s : EMAState) (names : List PyName) :
    ((block_to_sequence_names s names).1).recent_subsequences = s.recent_subsequences := by
  obtain ⟨a, b, c, h⟩ := bseq_shape names s
  rw [h]

@[simp] theorem bseq_keeps_recent_single_tools (s : EMAState) (names : List PyName) :
    ((block_to_sequence_names s names).1).recent_single_tools = s.recent_single_tools := by
  obtain ⟨a, b, c, h⟩ := bseq_shape names s
  rw [h]

@[simp] theorem bseq_keeps_frequency_table (s : EMAState) (names : List PyName) :
    ((block_to_sequence_names s names).1).frequency_table = s.frequency_table := by
  obtain ⟨a, b, c, h⟩ := bseq_shape names s
  rw [h]

theorem evict_spec (s : EMAState)
    (hnd : (s.frequency_table.map Prod.fst).Nodup)
    (hgt : s.t < s.frequency_table.length) :
    ∃ removed : List FTEntry,
      removed.length = s.frequency_table.length - s.t ∧
      (∀ e ∈ removed, e ∈ s.frequency_table) ∧
      (evict_from_frequency_table s).frequency_table
        = s.frequency_table.filter (fun e => removed.all (fun r => !(r.1 == e.1))) ∧
      (evict_from_frequency_table s).frequency_table.length = s.t ∧
      (∀ e, e ∈ (evict_from_frequency_table s).frequency_table ↔
          e ∈ s.frequency_table ∧ e.1 ∉ removed.map Prod.fst) ∧
      (∀ r ∈ removed, ∀ e ∈ (evict_from_frequency_table s).frequency_table,
          evictLt s.current_block_index r e) := by
  have htr : ∀ a b c, evictLe s.current_block_index a b = true →
      evictLe s.current_block_index b c = true →
      evictLe s.current_block_index a c = true := by
    rw [evictLe_eq_keyedLe]
    exact fun a b c => keyedLe_trans _ _ a b c
  have hto : ∀ a b, (evictLe s.current_block_index a b
      || evictLe s.current_block_index b a) = true := by
    rw [evictLe_eq_keyedLe]
    exact fun a b => keyedLe_total _ _ a b
  obtain ⟨h1, h2, h3, h4, h5⟩ := evict_take_core (evictLe s.current_block_index)
    htr hto s.frequency_table hnd (s.frequency_table.length - s.t) (by omega)
  have hft : (evict_from_frequency_table s).frequency_table
      = s.frequency_table.filter
          (fun e => ((pySorted (evictLe s.current_block_index) s.frequency_table).take
              (s.frequency_table.length - s.t)).all (fun r => !(r.1 == e.1))) := by
    unfold evict_from_frequency_table
    rw [if_neg (by omega)]
  refine ⟨(pySorted (evictLe s.current_block_index) s.frequency_table).take
      (s.frequency_table.length - s.t), h1, h2, hft, ?_, ?_, ?_⟩
  · rw [hft, h4]
    omega
  · intro e
    rw [hft]
    exact h3 e
  · intro r hr e he
    rw [hft] at he
    have hmain := h5 r hr e he
    have hle := hmain.1
    rw [evictLe_eq_keyedLe] at hle
    exact keyedLe_strict _ _ r e hle hmain.2

/-! Parameters survive add_block. -/

@[simp] theorem add_block_keeps_k (s : EMAState) (b : String) :
    (add_block s b).k = s.k := by
  simp only [add_block]
  split
  · rfl
  · split <;> simp [block_to_sequence]

@[simp] theorem add_block_keeps_t (s : EMAState) (b : String) :
    (add_block s b).t = s.t := by
  simp only [add_block]
  split
  · rfl
  · split <;> simp [block_to_sequence]

@[simp] theorem add_block_keeps_nr (s : EMAState) (b : String) :
    (add_block s b).nr = s.nr := by
  simp only [add_block]
  split
  · rfl
  · split <;> simp [block_to_sequence]

@[simp] theorem add_block_keeps_nf (s : EMAState) (b : String) :
    (add_block s b).nf = s.nf := by
  simp only [add_block]
  split
  · rfl
  · split <;> simp [block_to_sequence]

@[simp] theorem add_block_keeps_ns (s : EMAState) (b : String) :
    (add_block s b).ns = s.ns := by
  simp only [add_block]
  split
  · rfl
  · split <;> simp [block_to_sequence]

theorem add_block_table_le (s : EMAState) (b : String)
    (h : s.frequency_table.length ≤ s.t) :
    (add_block s b).frequency_table.length ≤ (add_block s b).t := by
  simp only [add_block]
  split
  · exact h
  · split
    · rename_i hlt
      obtain ⟨removed, -, -, -, hlen, -, -⟩ := evict_spec _ (nodup_keys_update _) hlt
      simp only [evict_keeps_t]
      omega
    · rename_i hlt
      omega

/-- C1: starting from a freshly constructed instance, after any sequence
of `add_block` calls the frequency table holds at most `t` entries.  Since
every prefix of a run is itself a run, this covers the table size after
each individual call. -/
theorem c1_frequency_table_bounded (k t nr nf ns : Nat) (blocks : List String) :
    ((blocks.foldl add_block (EMA.mkFresh k t nr nf ns)).frequency_table).length ≤ t := by
  suffices h : ∀ (s : EMAState), s.frequency_table.length ≤ s.t → s.t = t →
      ((blocks.foldl add_block s).frequency_table).length ≤ (blocks.foldl add_block s).t ∧
      (blocks.foldl add_block s).t = t by
    have hm := h (EMA.mkFresh k t nr nf ns) (by simp [EMA.mkFresh]) rfl
    omega
  induction blocks with
  | nil => intro s h1 h2; exact ⟨h1, h2⟩
  | cons b rest ih =>
    intro s h1 h2
    exact ih (add_block s b) (add_block_table_le s b h1)
      (by rw [add_block_keeps_t]; exact h2)

/-- C2 (amended): whenever the table has more than `t` entries (with
distinct keys, as every rebuilt table has) and it lies in the region
where Python's float arithmetic neither raises nor leaves the binary64
normal range (`last_usage ≤ current_block_index ≤ 2 ^ 1020` and
`frequency ≤ 2 ^ 1020` per entry), every estimation score is defined (no
`ZeroDivisionError`) and eviction removes exactly `len - t` entries —
precisely the smallest under ascending `(score, subsequence)` order with
lexicographic ascending tie-break, where the score is the binary64
rounding of `frequency * (1.0 / (1.0 + age))` the code computes, not the
exact rational of the claim — and the remaining table is the original
list with exactly those keys deleted, order preserved. -/
theorem c2_amended (s : EMAState)
    (hnd : (s.frequency_table.map Prod.fst).Nodup)
    (hgt : s.t < s.frequency_table.length)
    (hdom : ∀ e ∈ s.frequency_table,
      e.2.2 ≤ s.current_block_index ∧ e.2.1 ≤ 2 ^ 1020)
    (hcbi : s.current_block_index ≤ 2 ^ 1020) :
    (∀ e ∈ s.frequency_table,
      (estimation_function e.2.1 e.2.2 s.current_block_index).isSome = true) ∧
    ∃ removed : List FTEntry,
      removed.length = s.frequency_table.length - s.t ∧
      (∀ e ∈ removed, e ∈ s.frequency_table) ∧
      (evict_from_frequency_table s).frequency_table
        = s.frequency_table.filter (fun e => removed.all (fun r => !(r.1 == e.1))) ∧
      (evict_from_frequency_table s).frequency_table.length = s.t ∧
      (∀ e, e ∈ (evict_from_frequency_table s).frequency_table ↔
          e ∈ s.frequency_table ∧ e.1 ∉ removed.map Prod.fst) ∧
      (∀ r ∈ removed, ∀ e ∈ (evict_from_frequency_table s).frequency_table,
          evictLt s.current_block_index r e) :=
  ⟨fun e he => estimation_isSome_of_le (hdom e he).1, evict_spec s hnd hgt⟩

/-- A concrete three-entry table with `t = 1` used to witness C2. -/
def c2state : EMAState :=
  { EMA.mkFresh 10 1 2 5 5 with
      frequency_table := [([1], 1, 0), ([2], 2, 0), ([1, 2], 1, 0)],
      current_block_index := 0 }

set_option exponentiation.threshold 1100 in
set_option maxRecDepth 8192 in
/-- Witness for C2 at `c2state`. -/
theorem c2_witness :
    (c2state.frequency_table.map Prod.fst).Nodup ∧
    c2state.t < c2state.frequency_table.length ∧
    (∀ e ∈ c2state.frequency_table,
      e.2.2 ≤ c2state.current_block_index ∧ e.2.1 ≤ 2 ^ 1020) ∧
    c2state.current_block_index ≤ 2 ^ 1020 ∧
    ((∀ e ∈ c2state.frequency_table,
      (estimation_function e.2.1 e.2.2 c2state.current_block_index).isSome = true) ∧
    ∃ removed : List FTEntry,
      removed.length = c2state.frequency_table.length - c2state.t ∧
      (∀ e ∈ removed, e ∈ c2state.frequency_table) ∧
      (evict_from_frequency_table c2state).frequency_table
        = c2state.frequency_table.filter (fun e => removed.all (fun r => !(r.1 == e.1))) ∧
      (evict_from_frequency_table c2state).frequency_table.length = c2state.t ∧
      (∀ e, e ∈ (evict_from_frequency_table c2state).frequency_table ↔
          e ∈ c2state.frequency_table ∧ e.1 ∉ removed.map Prod.fst) ∧
      (∀ r ∈ removed, ∀ e ∈ (evict_from_frequency_table c2state).frequency_table,
          evictLt c2state.current_block_index r e)) :=
  ⟨by decide, by decide, by decide, by decide,
    c2_amended c2state (by decide) (by decide) (by decide) (by decide)⟩

/-- Modelled from the claim's words: the exact-rational estimation score
`frequency / (1 + age)` with `age = current_index - last_usage`, as the
claim's ascending pair order reads it. -/
def claimScore (frequency last_usage current_index : Nat) : ℚ :=
  (frequency : ℚ) *
    (1 / (1 + (((current_index : Int) - (last_usage : Int) : Int) : ℚ)))

/-- A two-entry table with `t = 1` whose binary64 scores tie although the
exact rational scores differ: both frequencies round to the double
`2 ^ 54`. -/
def c2cex : EMAState :=
  { EMA.mkFresh 10 1 2 5 5 with
      frequency_table := [([1], 2 ^ 54 + 1, 0), ([2], 2 ^ 54, 0)],
      current_block_index := 0 }

set_option maxRecDepth 8192 in
/-- C2 refuted as stated: at `c2cex` the code evicts the `[1]` entry and
keeps the `[2]` entry — both binary64 scores round to `2 ^ 54`, so the
ascending tuple tie-break applies — although the `[1]` entry's exact
score `2 ^ 54 + 1` is strictly larger than the kept entry's `2 ^ 54` and
its tuple lexicographically smaller, so under the claim's exact
`(frequency/(1+age), subsequence)` ascending order the single removed
entry would have been `[2]`, not `[1]`. -/
theorem c2_counterexample :
    (evict_from_frequency_table c2cex).frequency_table
      = [([2], 2 ^ 54, 0)] ∧
    claimScore (2 ^ 54) 0 0 < claimScore (2 ^ 54 + 1) 0 0 ∧
    lexLtB [1] [2] = true := by
  refine ⟨by decide, ?_, by decide⟩
  unfold claimScore
  norm_num

/-! Ranking facts for the two pick functions. -/

theorem keys_bumpCount (sub : List Nat) (l : List (List Nat × Nat)) :
    (bumpCount sub l).map Prod.fst
      = if sub ∈ l.map Prod.fst then l.map Prod.fst
        else l.map Prod.fst ++ [sub] := by
  induction l with
  | nil => simp [bumpCount]
  | cons e l ih =>
    by_cases h : e.1 = sub
    · simp [bumpCount, h]
    · by_cases hm : sub ∈ l.map Prod.fst
      · simp [bumpCount, h, ih, hm, List.mem_cons, Ne.symm h]
      · simp [bumpCount, h, ih, hm, List.mem_cons, Ne.symm h]

theorem nodup_keys_bumpCount (sub : List Nat) {l : List (List Nat × Nat)}
    (h : (l.map Prod.fst).Nodup) : ((bumpCount sub l).map Prod.fst).Nodup := by
  rw [keys_bumpCount]
  split
  · exact h
  · rename_i hm
    simp [List.nodup_append, h, hm]

theorem nodup_keys_countFold (subs : List (List Nat)) :
    ∀ {acc : List (List Nat × Nat)}, (acc.map Prod.fst).Nodup →
    ((subs.foldl (fun acc sub => bumpCount sub acc) acc).map Prod.fst).Nodup := by
  induction subs with
  | nil => intro acc h; exact h
  | cons sub subs ih => intro acc h; exact ih (nodup_keys_bumpCount sub h)

theorem nodup_keys_grs (s : EMAState) :
    ((get_recent_subsequences s).map Prod.fst).Nodup := by
  unfold get_recent_subsequences
  generalize s.recent_subsequences = L
  have h0 : (([] : List (List Nat × Nat)).map Prod.fst).Nodup := by simp
  revert h0
  generalize ([] : List (List Nat × Nat)) = acc
  induction L generalizing acc with
  | nil => intro h; exact h
  | cons subs L ih =>
    intro h
    exact ih _ (nodup_keys_countFold subs h)

theorem nodup_keys_evict (s : EMAState)
    (h : (s.frequency_table.map Prod.fst).Nodup) :
    (((evict_from_frequency_table s).frequency_table).map Prod.fst).Nodup := by
  unfold evict_from_frequency_table
  split
  · exact h
  · exact List.Nodup.sublist ((List.filter_sublist _).map Prod.fst) h

/-- Strict pairwise ordering of any `take` of a `pySorted` run of a keyed
comparator over a list with distinct keys. -/
theorem pairwise_take_pySorted_strict {β : Type} [LinearOrder β]
    (sc : α → β) (key : α → List Nat) (l : List α)
    (hnd : (l.map key).Nodup) (n : Nat) :
    ((pySorted (keyedLe sc key) l).take n).Pairwise
      (fun a b => sc a < sc b ∨ (sc a = sc b ∧ lexLtB (key a) (key b) = true)) := by
  have hpair := pairwise_pySorted (fun a b c => keyedLe_trans sc key a b c)
    (fun a b => keyedLe_total sc key a b) l
  have hperm := perm_pySorted (keyedLe sc key) l
  have hsnd : ((pySorted (keyedLe sc key) l).map key).Nodup :=
    ((hperm.map key).symm).nodup hnd
  have hne : (pySorted (keyedLe sc key) l).Pairwise (fun a b => key a ≠ key b) :=
    List.pairwise_map.mp hsnd
  have hstrict := (hpair.and hne).imp
    (fun hab => keyedLe_strict sc key _ _ hab.1 hab.2)
  exact hstrict.sublist (List.take_sublist n _)

/-- The strict ranking order claimed for `pick_from_recent` results:
score `frequency * length` strictly descending, or equal scores with the
subsequence tuples strictly ascending. -/
def pickRecLt (a b : List Nat × Nat) : Prop :=
  b.2 * b.1.length < a.2 * a.1.length ∨
    (a.2 * a.1.length = b.2 * b.1.length ∧ lexLtB a.1 b.1 = true)

/-- The same strict ranking order for `pick_from_frequency` entries. -/
def pickFreqLt (a b : FTEntry) : Prop :=
  b.2.1 * b.1.length < a.2.1 * a.1.length ∨
    (a.2.1 * a.1.length = b.2.1 * b.1.length ∧ lexLtB a.1 b.1 = true)

theorem pick_from_recent_spec (s : EMAState) (n : Nat) :
    (pick_from_recent s n).Pairwise pickRecLt ∧
    (pick_from_recent s n).length = min n (get_recent_subsequences s).length := by
  simp only [pick_from_recent]
  split
  · rename_i h
    simp [h]
  · constructor
    · rw [pickRecLe_eq_keyedLe]
      have hstrict := pairwise_take_pySorted_strict
        (fun a : List Nat × Nat => -((a.2 * a.1.length : Nat) : ℤ)) Prod.fst
        (get_recent_subsequences s) (nodup_keys_grs s) n
      refine hstrict.imp ?_
      rintro a b (hlt | ⟨heq, hlex⟩)
      · exact Or.inl (by omega)
      · exact Or.inr ⟨by omega, hlex⟩
    · rw [List.length_take, (perm_pySorted _ _).length_eq]

theorem pick_freq_core (s2 : EMAState) (n : Nat)
    (hnd : (s2.frequency_table.map Prod.fst).Nodup) :
    ((if s2.frequency_table = [] then (s2, ([] : List FTEntry))
      else (s2, (pySorted pickFreqLe s2.frequency_table).take n)).2).Pairwise pickFreqLt ∧
    ((if s2.frequency_table = [] then (s2, ([] : List FTEntry))
      else (s2, (pySorted pickFreqLe s2.frequency_table).take n)).2).length
      = min n ((if s2.frequency_table = [] then (s2, ([] : List FTEntry))
      else (s2, (pySorted pickFreqLe s2.frequency_table).take n)).1).frequency_table.length := by
  split
  · rename_i h
    simp [h]
  · constructor
    · rw [pickFreqLe_eq_keyedLe]
      have hstrict := pairwise_take_pySorted_strict
        (fun a : FTEntry => -((a.2.1 * a.1.length : Nat) : ℤ)) Prod.fst
        s2.frequency_table hnd n
      refine hstrict.imp ?_
      rintro a b (hlt | ⟨heq, hlex⟩)
      · exact Or.inl (by omega)
      · exact Or.inr ⟨by omega, hlex⟩
    · show ((pySorted pickFreqLe s2.frequency_table).take n).length
        = min n s2.frequency_table.length
      rw [List.length_take, (perm_pySorted _ _).length_eq]

theorem pick_from_frequency_spec (s : EMAState) (n : Nat) :
    ((pick_from_frequency s n).2).Pairwise pickFreqLt ∧
    ((pick_from_frequency s n).2).length
      = min n ((pick_from_frequency s n).1).frequency_table.length := by
  have hnd2 : ((if (update_frequency_table s).t
        < (update_frequency_table s).frequency_table.length
      then evict_from_frequency_table (update_frequency_table s)
      else update_frequency_table s).frequency_table.map Prod.fst).Nodup := by
    split
    · exact nodup_keys_evict _ (nodup_keys_update s)
    · exact nodup_keys_update s
  exact pick_freq_core _ n hnd2

/-- C3: both pick functions return lists sorted by `frequency * length`
descending with ascending-lexicographic tuple tie-break, of length
exactly `min n (number of available entries)`; and on the concrete run
`"A, B, C"`, `"A, B"`, `"A, C"` (t = 50, k = 10), `pick_from_frequency 3`
returns the sequences `(1,2)`, `(1,3)`, `(1,)` in that order. -/
theorem c3_picks_sorted_sized_example :
    (∀ (s : EMAState) (n : Nat),
      (pick_from_recent s n).Pairwise pickRecLt ∧
      (pick_from_recent s n).length = min n (get_recent_subsequences s).length ∧
      ((pick_from_frequency s n).2).Pairwise pickFreqLt ∧
      ((pick_from_frequency s n).2).length
        = min n ((pick_from_frequency s n).1).frequency_table.length) ∧
    ((pick_from_frequency
        (["A, B, C", "A, B", "A, C"].foldl add_block (EMA.mkFresh 10 50 2 5 5)) 3).2).map
        Prod.fst = [[1, 2], [1, 3], [1]] := by
  refine ⟨fun s n => ?_, by decide⟩
  obtain ⟨h1, h2⟩ := pick_from_recent_spec s n
  obtain ⟨h3, h4⟩ := pick_from_frequency_spec s n
  exact ⟨h1, h2, h3, h4⟩

/-! The single-tool recency tracker. -/

/-- Modelled from the claim's words for C6: remove the name's prior
occurrence if present, then append it at the most-recent end — with no
capacity limit.  The source instead appends into a deque of capacity
`ns * 10`, which drops its oldest entry when full. -/
def claimSingleToolStep (buf : List PyName) (name : PyName) : List PyName :=
  (if name ∈ buf then buf.erase name else buf) ++ [name]

/-- Eleven single-name blocks; with `ns = 1` the tracker capacity is 10,
so the eleventh append drops the oldest name. -/
def c6blocks : List String :=
  ["T0", "T1", "T2", "T3", "T4", "T5", "T6", "T7", "T8", "T9", "TX"]

/-- Counterexample to C6 as stated: on a full buffer the deque drops its
oldest entry, so the buffer is not the plain remove-then-append fold. -/
theorem c6_counterexample :
    (c6blocks.foldl add_block (EMA.mkFresh 10 50 2 5 1)).recent_single_tools
      ≠ c6blocks.foldl
          (fun buf b => (nonblankNames b).foldl claimSingleToolStep buf) [] := by
  decide

theorem nodup_dequeAppend (cap : Nat) {xs : List α} {x : α}
    (h : (xs ++ [x]).Nodup) : (dequeAppend cap xs x).Nodup := by
  simp only [dequeAppend]
  split
  · exact List.Nodup.sublist (List.drop_sublist _ _) h
  · exact h

theorem nodup_singleToolStep (cap : Nat) {buf : List PyName} (name : PyName)
    (h : buf.Nodup) :
    (dequeAppend cap (if name ∈ buf then buf.erase name else buf) name).Nodup := by
  refine nodup_dequeAppend cap ?_
  rw [List.nodup_append]
  split
  · rename_i hm
    refine ⟨h.erase name, List.nodup_singleton name, ?_⟩
    intro a ha hae
    rcases List.mem_singleton.mp hae with rfl
    exact ((h.mem_erase_iff).mp ha).1 rfl
  · rename_i hm
    refine ⟨h, List.nodup_singleton name, ?_⟩
    intro a ha hae
    rcases List.mem_singleton.mp hae with rfl
    exact hm ha

theorem nodup_singleToolFold (cap : Nat) (names : List PyName) :
    ∀ {buf : List PyName}, buf.Nodup →
    (names.foldl (fun buf name =>
        dequeAppend cap (if name ∈ buf then buf.erase name else buf) name) buf).Nodup := by
  induction names with
  | nil => intro buf h; exact h
  | cons name names ih =>
    intro buf h
    exact ih (nodup_singleToolStep cap name h)

theorem add_block_single_tools (s : EMAState) (b : String) :
    (add_block s b).recent_single_tools
      = if (block_to_sequence s b).2 = [] then s.recent_single_tools
        else (nonblankNames b).foldl
          (fun buf name =>
            dequeAppend (s.ns * 10) (if name ∈ buf then buf.erase name else buf) name)
          s.recent_single_tools := by
  simp only [add_block]
  split
  · rfl
  · split <;> simp [block_to_sequence]

theorem add_block_single_tools_nodup (s : EMAState) (b : String)
    (h : s.recent_single_tools.Nodup) :
    (add_block s b).recent_single_tools.Nodup := by
  rw [add_block_single_tools]
  split
  · exact h
  · exact nodup_singleToolFold _ _ h

theorem get_recent_single_tools_take (s : EMAState) (n : Nat) (hn : 1 ≤ n) :
    get_recent_single_tools s n = s.recent_single_tools.reverse.take n := by
  simp only [get_recent_single_tools]
  by_cases hlen : n ≤ s.recent_single_tools.length
  · rw [if_pos hlen, if_neg (by omega), List.reverse_drop]
    congr 1
    omega
  · rw [if_neg hlen]
    rw [List.take_of_length_le (by rw [List.length_reverse]; omega)]

/-- C6 amended: processing a block folds each trimmed name through
"remove the prior occurrence if present, then append" — but into a deque
of capacity `ns * 10`, which drops the oldest entry when a new name is
appended to a full buffer.  The buffer therefore stays duplicate-free on
every run, and for `n ≥ 1` `get_recent_single_tools` is the last `n`
entries most-recent-first, i.e. `reverse.take n`. -/
theorem c6_amended (k t nr nf ns : Nat) (blocks : List String)
    (s : EMAState) (b : String) (n : Nat) (hn : 1 ≤ n) :
    ((blocks.foldl add_block (EMA.mkFresh k t nr nf ns)).recent_single_tools).Nodup ∧
    (add_block s b).recent_single_tools
      = (if (block_to_sequence s b).2 = [] then s.recent_single_tools
         else (nonblankNames b).foldl
           (fun buf name =>
             dequeAppend (s.ns * 10) (if name ∈ buf then buf.erase name else buf) name)
           s.recent_single_tools) ∧
    get_recent_single_tools s n = s.recent_single_tools.reverse.take n := by
  refine ⟨?_, add_block_single_tools s b, get_recent_single_tools_take s n hn⟩
  suffices hstep : ∀ (st : EMAState), st.recent_single_tools.Nodup →
      ((blocks.foldl add_block st).recent_single_tools).Nodup by
    exact hstep (EMA.mkFresh k t nr nf ns) (by simp [EMA.mkFresh])
  induction blocks with
  | nil => intro st h; exact h
  | cons blk rest ih =>
    intro st h
    exact ih (add_block st blk) (add_block_single_tools_nodup st blk h)

/-- Witness for C6 amended at a concrete state and block. -/
theorem c6_witness :
    1 ≤ 2 ∧
    (((["A, B", "B"] : List String).foldl add_block
        (EMA.mkFresh 10 50 2 5 5)).recent_single_tools).Nodup ∧
    (add_block c2state "A, B").recent_single_tools
      = (if (block_to_sequence c2state "A, B").2 = [] then c2state.recent_single_tools
         else (nonblankNames "A, B").foldl
           (fun buf name =>
             dequeAppend (c2state.ns * 10) (if name ∈ buf then buf.erase name else buf) name)
           c2state.recent_single_tools) ∧
    get_recent_single_tools c2state 2 = c2state.recent_single_tools.reverse.take 2 :=
  ⟨by omega, c6_amended 10 50 2 5 5 ["A, B", "B"] c2state "A, B" 2 (by omega)⟩

/-! Replay of the stored history and exact content of the rebuilt table. -/

/-- Replay conversion of a list of blocks, returning the threaded state
and the sequences produced in order — the per-block conversions performed
inside `EMA._update_frequency_table`. -/
def replayRun (s : EMAState) : List String → EMAState × List (List Nat)
  | [] => (s, [])
  | b :: bs =>
    let conv := block_to_sequence s b
    let r := replayRun conv.1 bs
    (r.1, conv.2 :: r.2)

/-- The per-block subsequence lists the rebuild generates for the current
history of `s`, under the current symbol table. -/
def replaySubsLists (s : EMAState) : List (List (List Nat)) :=
  ((replayRun s s.all_blocks).2).map (fun q => generate_subsequences q 1)

/-- Pairs `(index, element)` starting at `i`, as Python `enumerate`. -/
def withIdx (i : Nat) : List α → List (Nat × α)
  | [] => []
  | x :: xs => (i, x) :: withIdx (i + 1) xs

/-- Total number of occurrences of `sub` among the generated subsequence
lists; occurrences within one block count with multiplicity. -/
def timesGenerated (sub : List Nat) (L : List (List (List Nat))) : Nat :=
  (L.map (fun subs => subs.count sub)).sum

/-- All block indices whose generated subsequence list contains `sub`. -/
def hitIdxs (sub : List Nat) (L : List (List (List Nat))) : List Nat :=
  ((withIdx 0 L).filter (fun p => sub ∈ p.2)).map Prod.fst

/-- The highest block index whose generated list contains `sub` (0 when
none does). -/
def lastGenerated (sub : List Nat) (L : List (List (List Nat))) : Nat :=
  (hitIdxs sub L).foldr max 0

/-- Modelled from the claim's words for C4: whether `sub` occurs in `q` as
an order-preserving (not necessarily contiguous) subsequence. -/
def isSubseqOf : List Nat → List Nat → Bool
  | [], _ => true
  | _ :: _, [] => false
  | a :: as, b :: bs => if a = b then isSubseqOf as bs else isSubseqOf (a :: as) bs

/-- Modelled from the claim's words for C4: the number of blocks across
all history whose sequence contains `sub` as an order-preserving
subsequence. -/
def numBlocksContaining (s : EMAState) (sub : List Nat) : Nat :=
  (((replayRun s s.all_blocks).2).filter (fun q => isSubseqOf sub q)).length

/-- Counterexample to C4 as stated: after `add_block "A, A"` the tuple
`(1,)` has frequency 2 — it is generated by two different index choices
inside the single block — while only one block contains it. -/
theorem c4_counterexample :
    ([1], 2, 0) ∈ (add_block (EMA.mkFresh 10 50 2 5 5) "A, A").frequency_table ∧
    numBlocksContaining (add_block (EMA.mkFresh 10 50 2 5 5) "A, A") [1] = 1 ∧
    (2 : Nat) ≠ 1 := by decide

/-- The value bump applied to an entry hit `m` times at block index `j`. -/
def bumpVal (j m : Nat) : Option (Nat × Nat) → Nat × Nat
  | none => (m, j)
  | some (fr, lu) => (fr + m, max lu j)

/-- Accumulate the rebuilt tables block by block starting at index `i`,
as the rebuild loop does. -/
def accumTables (ft : List FTEntry) (i : Nat) : List (List (List Nat)) → List FTEntry
  | [] => ft
  | subs :: rest =>
    accumTables (subs.foldl (fun ft sub => bumpFreq i sub ft) ft) (i + 1) rest

theorem alookup_bumpFreq (k sub : List Nat) (j : Nat) (ft : List FTEntry) :
    alookup k (bumpFreq j sub ft)
      = if k = sub then some (bumpVal j 1 (alookup sub ft)) else alookup k ft := by
  induction ft with
  | nil =>
    by_cases h : k = sub
    · subst h
      simp [bumpFreq, alookup, bumpVal]
    · have h' : ¬sub = k := fun e => h e.symm
      simp [bumpFreq, alookup, h, h']
  | cons e ft ih =>
    obtain ⟨ek, fr, lu⟩ := e
    by_cases hes : ek = sub
    · subst hes
      by_cases hk : k = ek
      · subst hk
        simp [bumpFreq, alookup, bumpVal]
      · have hk' : ¬ek = k := fun e => hk e.symm
        simp [bumpFreq, alookup, hk, hk']
    · by_cases hk : ek = k
      · subst hk
        simp [bumpFreq, alookup, hes]
      · by_cases h3 : k = sub
        · subst h3
          simp [bumpFreq, alookup, hes, hk, ih]
        · simp [bumpFreq, alookup, hes, hk, h3, ih]

theorem bumpVal_compose (j1 j2 m c : Nat) (o : Option (Nat × Nat)) (hj : j1 ≤ j2) :
    bumpVal j2 c (some (bumpVal j1 m o)) = bumpVal j2 (m + c) o := by
  cases o with
  | none =>
    show (m + c, max j1 j2) = (m + c, j2)
    rw [Nat.max_eq_right hj]
  | some p =>
    obtain ⟨fr, lu⟩ := p
    show (fr + m + c, max (max lu j1) j2) = (fr + (m + c), max lu j2)
    rw [Nat.max_assoc, Nat.max_eq_right hj, Nat.add_assoc]

theorem alookup_bumpFold (k : List Nat) (j : Nat) (subs : List (List Nat)) :
    ∀ (ft : List FTEntry),
    alookup k (subs.foldl (fun ft sub => bumpFreq j sub ft) ft)
      = if subs.count k = 0 then alookup k ft
        else some (bumpVal j (subs.count k) (alookup k ft)) := by
  induction subs with
  | nil => intro ft; simp
  | cons sub subs ih =>
    intro ft
    rw [List.foldl_cons, ih, alookup_bumpFreq]
    by_cases hs : k = sub
    · subst hs
      rw [if_pos rfl]
      have hcnt : (k :: subs).count k = subs.count k + 1 := by
        simp [List.count_cons]
      rw [hcnt]
      by_cases hc : subs.count k = 0
      · rw [if_pos hc, if_neg (by omega), hc]
      · rw [if_neg hc, if_neg (by omega)]
        rw [bumpVal_compose j j 1 (List.count k subs) (alookup k ft) (Nat.le_refl j)]
        rw [Nat.add_comm 1 (List.count k subs)]
    · have hcnt : (sub :: subs).count k = subs.count k := by
        simp [List.count_cons, hs]
      rw [if_neg hs, hcnt]

theorem accumTables_append (L : List (List (List Nat))) (subs : List (List Nat)) :
    ∀ (ft : List FTEntry) (i : Nat),
    accumTables ft i (L ++ [subs])
      = subs.foldl (fun ft sub => bumpFreq (i + L.length) sub ft) (accumTables ft i L) := by
  induction L with
  | nil => intro ft i; simp [accumTables]
  | cons x L ih =>
    intro ft i
    have h0 : accumTables ft i ((x :: L) ++ [subs])
        = accumTables (x.foldl (fun ft sub => bumpFreq i sub ft) ft) (i + 1) (L ++ [subs]) :=
      rfl
    rw [h0, ih]
    have he : i + 1 + L.length = i + (x :: L).length := by
      simp [List.length_cons]
      omega
    rw [he]
    rfl

theorem withIdx_append (i : Nat) (L M : List α) :
    withIdx i (L ++ M) = withIdx i L ++ withIdx (i + L.length) M := by
  induction L generalizing i with
  | nil => simp [withIdx]
  | cons x L ih =>
    have h0 : withIdx i ((x :: L) ++ M) = (i, x) :: withIdx (i + 1) (L ++ M) := rfl
    rw [h0, ih]
    have he : i + 1 + L.length = i + (x :: L).length := by
      simp [List.length_cons]
      omega
    rw [he]
    rfl

theorem mem_withIdx_lt {i : Nat} {L : List α} {p : Nat × α}
    (h : p ∈ withIdx i L) : p.1 < i + L.length := by
  induction L generalizing i with
  | nil => simp [withIdx] at h
  | cons x L ih =>
    simp only [withIdx, List.mem_cons] at h
    rcases h with rfl | h
    · simp
    · have := ih h
      simp only [List.length_cons]
      omega

theorem foldr_max_append (xs ys : List Nat) :
    (xs ++ ys).foldr max 0 = max (xs.foldr max 0) (ys.foldr max 0) := by
  induction xs with
  | nil => simp
  | cons x xs ih =>
    simp only [List.cons_append, List.foldr_cons, ih]
    omega

theorem foldr_max_le {xs : List Nat} {m : Nat} (h : ∀ x ∈ xs, x ≤ m) :
    xs.foldr max 0 ≤ m := by
  induction xs with
  | nil => simp
  | cons x xs ih =>
    simp only [List.foldr_cons]
    have h1 := h x (by simp)
    have h2 := ih (fun y hy => h y (by simp [hy]))
    omega

theorem timesGenerated_append (sub : List Nat) (L : List (List (List Nat)))
    (subs : List (List Nat)) :
    timesGenerated sub (L ++ [subs]) = timesGenerated sub L + subs.count sub := by
  simp [timesGenerated]

theorem hitIdxs_append (sub : List Nat) (L : List (List (List Nat)))
    (subs : List (List Nat)) :
    hitIdxs sub (L ++ [subs])
      = hitIdxs sub L ++ (if sub ∈ subs then [L.length] else []) := by
  unfold hitIdxs
  rw [withIdx_append, List.filter_append, List.map_append]
  congr 1
  simp only [Nat.zero_add, withIdx]
  split
  · rename_i h
    simp [List.filter_cons, h]
  · rename_i h
    simp [List.filter_cons, h]

theorem lastGenerated_append (sub : List Nat) (L : List (List (List Nat)))
    (subs : List (List Nat)) :
    lastGenerated sub (L ++ [subs])
      = if sub ∈ subs then max (lastGenerated sub L) L.length
        else lastGenerated sub L := by
  unfold lastGenerated
  rw [hitIdxs_append, foldr_max_append]
  split
  · simp
  · simp

theorem lastGenerated_le (sub : List Nat) (L : List (List (List Nat))) :
    lastGenerated sub L ≤ L.length := by
  refine foldr_max_le ?_
  intro x hx
  unfold hitIdxs at hx
  rcases List.mem_map.mp hx with ⟨p, hp, rfl⟩
  have := mem_withIdx_lt (List.mem_of_mem_filter hp)
  omega

theorem alookup_accumTables (sub : List Nat) (L : List (List (List Nat))) :
    ∀ (ft : List FTEntry) (i : Nat),
    alookup sub (accumTables ft i L)
      = if timesGenerated sub L = 0 then alookup sub ft
        else some (bumpVal (i + lastGenerated sub L) (timesGenerated sub L)
          (alookup sub ft)) := by
  induction L using List.reverseRecOn with
  | nil =>
    intro ft i
    simp [accumTables, timesGenerated]
  | append_singleton L subs ih =>
    intro ft i
    rw [accumTables_append, alookup_bumpFold, ih, timesGenerated_append,
      lastGenerated_append]
    have hb : lastGenerated sub L ≤ L.length := lastGenerated_le sub L
    by_cases hc : subs.count sub = 0
    · have hmem : sub ∉ subs := by
        intro hmm
        have := List.count_pos_iff.mpr hmm
        omega
      rw [if_neg hmem, hc, Nat.add_zero, if_pos rfl]
    · have hmem : sub ∈ subs := by
        by_contra hmm
        have := List.count_eq_zero.mpr hmm
        omega
      rw [if_pos hmem, if_neg hc]
      have hne2 : ¬(timesGenerated sub L + subs.count sub = 0) := by omega
      rw [if_neg hne2]
      have hmax : max (lastGenerated sub L) L.length = L.length := Nat.max_eq_right hb
      rw [hmax]
      by_cases htg : timesGenerated sub L = 0
      · rw [if_pos htg, htg, Nat.zero_add]
      · rw [if_neg htg]
        rw [bumpVal_compose (i + lastGenerated sub L) (i + L.length)
          (timesGenerated sub L) (subs.count sub) (alookup sub ft) (by omega)]

theorem updateFold_decomp (blocks : List String) :
    ∀ (s : EMAState) (ft : List FTEntry) (i : Nat),
    blocks.foldl updateStep (s, (ft, i))
      = ((replayRun s blocks).1,
         (accumTables ft i
            (((replayRun s blocks).2).map (fun q => generate_subsequences q 1)),
          i + blocks.length)) := by
  induction blocks with
  | nil =>
    intro s ft i
    simp [replayRun, accumTables]
  | cons b bs ih =>
    intro s ft i
    rw [List.foldl_cons]
    have h1 : updateStep (s, (ft, i)) b
        = ((block_to_sequence s b).1,
           ((generate_subsequences (block_to_sequence s b).2 1).foldl
              (fun ft sub => bumpFreq i sub ft) ft, i + 1)) := rfl
    rw [h1, ih]
    have h2 : (replayRun s (b :: bs)).1 = (replayRun (block_to_sequence s b).1 bs).1 := rfl
    have h3 : (replayRun s (b :: bs)).2
        = (block_to_sequence s b).2 :: (replayRun (block_to_sequence s b).1 bs).2 := rfl
    rw [h2, h3]
    have h4 : i + 1 + bs.length = i + (b :: bs).length := by
      simp [List.length_cons]
      omega
    rw [h4]
    rfl

theorem update_eq_accum (s : EMAState) :
    update_frequency_table s
      = { (replayRun s s.all_blocks).1 with
          frequency_table := accumTables [] 0 (replaySubsLists s) } := by
  show { (s.all_blocks.foldl updateStep (s, ([], 0))).1 with
      frequency_table := (s.all_blocks.foldl updateStep (s, ([], 0))).2.1 } = _
  rw [updateFold_decomp]
  rfl

theorem alookup_of_mem {l : List (List Nat × Nat × Nat)}
    (hnd : (l.map Prod.fst).Nodup) {k : List Nat} {v : Nat × Nat}
    (h : (k, v) ∈ l) : alookup k l = some v := by
  induction l with
  | nil => simp at h
  | cons e l ih =>
    obtain ⟨ek, ev⟩ := e
    have hnd' : ek ∉ l.map Prod.fst ∧ (l.map Prod.fst).Nodup := by
      rw [List.map_cons] at hnd
      exact List.nodup_cons.mp hnd
    rcases List.mem_cons.mp h with he | he
    · cases he
      simp [alookup]
    · have hk : ¬ek = k := by
        intro hek
        subst hek
        exact hnd'.1 (List.mem_map.mpr ⟨(ek, v), he, rfl⟩)
      simp [alookup, hk, ih hnd'.2 he]

theorem update_ft_entries (s : EMAState) :
    ∀ e ∈ (update_frequency_table s).frequency_table,
      e.2.1 = timesGenerated e.1 (replaySubsLists s) ∧
      e.2.2 = lastGenerated e.1 (replaySubsLists s) := by
  intro e he
  have hnd := nodup_keys_update s
  rw [update_eq_accum] at he hnd
  have he' : e ∈ accumTables [] 0 (replaySubsLists s) := he
  have hnd' : ((accumTables [] 0 (replaySubsLists s)).map Prod.fst).Nodup := hnd
  obtain ⟨ek, ev⟩ := e
  have hl := alookup_of_mem hnd' he'
  rw [alookup_accumTables] at hl
  by_cases htg : timesGenerated ek (replaySubsLists s) = 0
  · rw [if_pos htg] at hl
    simp [alookup] at hl
  · rw [if_neg htg] at hl
    have h5 : (timesGenerated ek (replaySubsLists s),
        0 + lastGenerated ek (replaySubsLists s)) = ev := Option.some.inj hl
    constructor
    · show ev.1 = _
      rw [← h5]
    · show ev.2 = _
      rw [← h5]
      exact Nat.zero_add _

/-! Stability of the replay under symbol-table extension. -/

/-- Map extension: every existing name binding of `s` survives in `s'`. -/
def mapExt (s s' : EMAState) : Prop :=
  ∀ name v, alookup name s.name_to_number = some v →
    alookup name s'.name_to_number = some v

theorem mapExt_refl (s : EMAState) : mapExt s s := fun _ _ h => h

theorem mapExt_trans {s1 s2 s3 : EMAState} (h1 : mapExt s1 s2)
    (h2 : mapExt s2 s3) : mapExt s1 s3 :=
  fun n v h => h2 n v (h1 n v h)

theorem alookup_append_some [DecidableEq α] {l1 : List (α × β)} {k : α} {v : β}
    (l2 : List (α × β)) (h : alookup k l1 = some v) :
    alookup k (l1 ++ l2) = some v := by
  induction l1 with
  | nil => simp [alookup] at h
  | cons e l ih =>
    obtain ⟨ek, ev⟩ := e
    by_cases hk : ek = k
    · subst hk
      simp [alookup] at h ⊢
      exact h
    · simp [alookup, hk] at h ⊢
      exact ih h

theorem alookup_append_of_none [DecidableEq α] {l : List (α × β)} {k : α} (v : β)
    (h : alookup k l = none) : alookup k (l ++ [(k, v)]) = some v := by
  induction l with
  | nil => simp [alookup]
  | cons e l ih =>
    obtain ⟨ek, ev⟩ := e
    by_cases hk : ek = k
    · simp [alookup, hk] at h
    · simp [alookup, hk] at h ⊢
      exact ih h

theorem gnfn_mapExt (s : EMAState) (name : PyName) :
    mapExt s ((get_number_for_name s name).1) := by
  unfold get_number_for_name
  split
  · exact mapExt_refl s
  · intro n v h
    exact alookup_append_some _ h

theorem gnfn_lookup (s : EMAState) (name : PyName) :
    alookup name ((get_number_for_name s name).1).name_to_number
      = some ((get_number_for_name s name).2) := by
  unfold get_number_for_name
  split
  · rename_i num h
    exact h
  · rename_i h
    exact alookup_append_of_none _ h

theorem gnfn_of_some (s : EMAState) (name : PyName) (v : Nat)
    (h : alookup name s.name_to_number = some v) :
    get_number_for_name s name = (s, v) := by
  unfold get_number_for_name
  rw [h]

theorem bseq_spec (names : List PyName) : ∀ (s : EMAState),
    mapExt s ((block_to_sequence_names s names).1) ∧
    (∀ s', mapExt ((block_to_sequence_names s names).1) s' →
      block_to_sequence_names s' names = (s', (block_to_sequence_names s names).2)) := by
  induction names with
  | nil =>
    intro s
    exact ⟨mapExt_refl s, fun s' _ => rfl⟩
  | cons name rest ih =>
    intro s
    obtain ⟨ihExt, ihStable⟩ := ih ((get_number_for_name s name).1)
    have hTot : mapExt s ((block_to_sequence_names s (name :: rest)).1) := by
      have h0 : (block_to_sequence_names s (name :: rest)).1
          = (block_to_sequence_names ((get_number_for_name s name).1) rest).1 := rfl
      rw [h0]
      exact mapExt_trans (gnfn_mapExt s name) ihExt
    refine ⟨hTot, ?_⟩
    intro s' hs'
    have hs'0 : mapExt ((block_to_sequence_names ((get_number_for_name s name).1) rest).1) s' :=
      hs'
    have hlook : alookup name
        ((block_to_sequence_names ((get_number_for_name s name).1) rest).1).name_to_number
        = some ((get_number_for_name s name).2) :=
      ihExt _ _ (gnfn_lookup s name)
    have hlook' := hs'0 _ _ hlook
    have h1 : get_number_for_name s' name = (s', (get_number_for_name s name).2) :=
      gnfn_of_some _ _ _ hlook'
    have h2 := ihStable s' hs'0
    show (let r := get_number_for_name s' name
          let q := block_to_sequence_names r.1 rest
          (q.1, r.2 :: q.2)) = _
    rw [h1]
    show ((block_to_sequence_names s' rest).1,
        (get_number_for_name s name).2 :: (block_to_sequence_names s' rest).2) = _
    rw [h2]
    rfl

theorem replayRun_spec (blocks : List String) : ∀ (s : EMAState),
    mapExt s ((replayRun s blocks).1) ∧
    (∀ s', mapExt ((replayRun s blocks).1) s' →
      replayRun s' blocks = (s', (replayRun s blocks).2)) := by
  induction blocks with
  | nil =>
    intro s
    exact ⟨mapExt_refl s, fun s' _ => rfl⟩
  | cons b bs ih =>
    intro s
    obtain ⟨ihExt, ihStable⟩ := ih ((block_to_sequence s b).1)
    obtain ⟨bExt, bStable⟩ := bseq_spec (nonblankNames b) s
    have hTot : mapExt s ((replayRun s (b :: bs)).1) := by
      have h0 : (replayRun s (b :: bs)).1
          = (replayRun ((block_to_sequence s b).1) bs).1 := rfl
      rw [h0]
      exact mapExt_trans bExt ihExt
    refine ⟨hTot, ?_⟩
    intro s' hs'
    have hs'0 : mapExt ((replayRun ((block_to_sequence s b).1) bs).1) s' := hs'
    have h1 : block_to_sequence s' b = (s', (block_to_sequence s b).2) :=
      bStable s' (mapExt_trans ihExt hs'0)
    have h2 := ihStable s' hs'0
    show (let conv := block_to_sequence s' b
          let r := replayRun conv.1 bs
          (r.1, conv.2 :: r.2)) = _
    rw [h1]
    show ((replayRun s' bs).1, (block_to_sequence s b).2 :: (replayRun s' bs).2) = _
    rw [h2]
    rfl

theorem gnfn_ft_frame (s : EMAState) (x : List FTEntry) (name : PyName) :
    get_number_for_name { s with frequency_table := x } name
      = ({ (get_number_for_name s name).1 with frequency_table := x },
         (get_number_for_name s name).2) := by
  unfold get_number_for_name
  cases h : alookup name s.name_to_number <;> simp [h]

theorem bseq_ft_frame (names : List PyName) : ∀ (s : EMAState) (x : List FTEntry),
    block_to_sequence_names { s with frequency_table := x } names
      = ({ (block_to_sequence_names s names).1 with frequency_table := x },
         (block_to_sequence_names s names).2) := by
  induction names with
  | nil => intro s x; rfl
  | cons name rest ih =>
    intro s x
    show (let r := get_number_for_name { s with frequency_table := x } name
          let q := block_to_sequence_names r.1 rest
          (q.1, r.2 :: q.2)) = _
    rw [gnfn_ft_frame]
    show ((block_to_sequence_names
            { (get_number_for_name s name).1 with frequency_table := x } rest).1,
          (get_number_for_name s name).2
            :: (block_to_sequence_names
                  { (get_number_for_name s name).1 with frequency_table := x } rest).2) = _
    rw [ih]
    rfl

theorem replayRun_ft_frame (blocks : List String) :
    ∀ (s : EMAState) (x : List FTEntry),
    replayRun { s with frequency_table := x } blocks
      = ({ (replayRun s blocks).1 with frequency_table := x },
         (replayRun s blocks).2) := by
  induction blocks with
  | nil => intro s x; rfl
  | cons b bs ih =>
    intro s x
    show (let conv := block_to_sequence { s with frequency_table := x } b
          let r := replayRun conv.1 bs
          (r.1, conv.2 :: r.2)) = _
    have hb : block_to_sequence { s with frequency_table := x } b
        = ({ (block_to_sequence s b).1 with frequency_table := x },
           (block_to_sequence s b).2) := bseq_ft_frame (nonblankNames b) s x
    rw [hb]
    show ((replayRun { (block_to_sequence s b).1 with frequency_table := x } bs).1,
          (block_to_sequence s b).2
            :: (replayRun { (block_to_sequence s b).1 with frequency_table := x } bs).2) = _
    rw [ih]
    rfl

theorem replayRun_shape (blocks : List String) : ∀ (s : EMAState),
    ∃ a b c, (replayRun s blocks).1
      = { s with name_to_number := a, number_to_name := b, next_number := c } := by
  induction blocks with
  | nil => intro s; exact ⟨_, _, _, rfl⟩
  | cons blk bs ih =>
    intro s
    obtain ⟨a1, b1, c1, h1⟩ := bseq_shape (nonblankNames blk) s
    obtain ⟨a2, b2, c2, h2⟩ := ih ((block_to_sequence s blk).1)
    refine ⟨a2, b2, c2, ?_⟩
    have h0 : (replayRun s (blk :: bs)).1
        = (replayRun (block_to_sequence s blk).1 bs).1 := rfl
    have h1' : (block_to_sequence s blk).1
        = { s with name_to_number := a1, number_to_name := b1, next_number := c1 } := h1
    rw [h0, h2, h1']

theorem evict_ft_subset (s : EMAState) {e : FTEntry}
    (h : e ∈ (evict_from_frequency_table s).frequency_table) :
    e ∈ s.frequency_table := by
  revert h
  unfold evict_from_frequency_table
  split
  · exact id
  · intro h
    exact List.mem_of_mem_filter h

theorem replaySubsLists_update_ft (s2 : EMAState) (d : List FTEntry) :
    replaySubsLists { update_frequency_table s2 with frequency_table := d }
      = replaySubsLists s2 := by
  have h1 : { update_frequency_table s2 with frequency_table := d }
      = { (replayRun s2 s2.all_blocks).1 with frequency_table := d } := by
    rw [update_eq_accum]
  rw [h1]
  obtain ⟨a, b, c, hsh⟩ := replayRun_shape s2.all_blocks s2
  have hab : ({ (replayRun s2 s2.all_blocks).1 with
      frequency_table := d }).all_blocks = s2.all_blocks := by
    rw [hsh]
  unfold replaySubsLists
  rw [hab]
  rw [replayRun_ft_frame]
  obtain ⟨-, hstab⟩ := replayRun_spec s2.all_blocks s2
  rw [hstab ((replayRun s2 s2.all_blocks).1) (mapExt_refl _)]

theorem post_update_entries (s2 : EMAState) :
    ∀ e ∈ (if (update_frequency_table s2).t
          < (update_frequency_table s2).frequency_table.length
        then evict_from_frequency_table (update_frequency_table s2)
        else update_frequency_table s2).frequency_table,
      e.2.1 = timesGenerated e.1 (replaySubsLists
        (if (update_frequency_table s2).t
            < (update_frequency_table s2).frequency_table.length
         then evict_from_frequency_table (update_frequency_table s2)
         else update_frequency_table s2)) ∧
      e.2.2 = lastGenerated e.1 (replaySubsLists
        (if (update_frequency_table s2).t
            < (update_frequency_table s2).frequency_table.length
         then evict_from_frequency_table (update_frequency_table s2)
         else update_frequency_table s2)) := by
  intro e he
  have hsub : e ∈ (update_frequency_table s2).frequency_table := by
    revert he
    split
    · intro he
      exact evict_ft_subset _ he
    · exact id
  have hmain := update_ft_entries s2 e hsub
  have hrepl : replaySubsLists
      (if (update_frequency_table s2).t
          < (update_frequency_table s2).frequency_table.length
       then evict_from_frequency_table (update_frequency_table s2)
       else update_frequency_table s2) = replaySubsLists s2 := by
    split
    · obtain ⟨dd, hd⟩ := evict_shape (update_frequency_table s2)
      rw [hd]
      exact replaySubsLists_update_ft s2 dd
    · exact replaySubsLists_update_ft s2
        (update_frequency_table s2).frequency_table
  rw [hrepl]
  exact hmain

theorem add_block_entries (s : EMAState) (b : String)
    (hne : ¬(block_to_sequence s b).2 = []) :
    ∀ e ∈ (add_block s b).frequency_table,
      e.2.1 = timesGenerated e.1 (replaySubsLists (add_block s b)) ∧
      e.2.2 = lastGenerated e.1 (replaySubsLists (add_block s b)) := by
  simp only [add_block]
  rw [if_neg hne]
  exact post_update_entries _

/-- C4 amended: after any run of `add_block` calls, each frequency-table
entry records, for its subsequence tuple, the total number of generating
occurrences across all stored blocks — one per index combination, so a
tuple produced twice by one block counts twice, unlike the claimed
"number of blocks containing it" — and the highest block index whose
generated subsequence list contains the tuple, with blocks re-converted
through the current symbol table as the rebuild does. -/
theorem c4_amended (k t nr nf ns : Nat) (blocks : List String) :
    ∀ e ∈ (blocks.foldl add_block (EMA.mkFresh k t nr nf ns)).frequency_table,
      e.2.1 = timesGenerated e.1
        (replaySubsLists (blocks.foldl add_block (EMA.mkFresh k t nr nf ns))) ∧
      e.2.2 = lastGenerated e.1
        (replaySubsLists (blocks.foldl add_block (EMA.mkFresh k t nr nf ns))) := by
  induction blocks using List.reverseRecOn with
  | nil =>
    intro e he
    simp [EMA.mkFresh] at he
  | append_singleton L b ih =>
    simp only [List.foldl_append, List.foldl_cons, List.foldl_nil]
    by_cases hne : (block_to_sequence (L.foldl add_block (EMA.mkFresh k t nr nf ns)) b).2 = []
    · have hid : add_block (L.foldl add_block (EMA.mkFresh k t nr nf ns)) b
          = L.foldl add_block (EMA.mkFresh k t nr nf ns) := by
        simp only [add_block]
        rw [if_pos hne]
      rw [hid]
      exact ih
    · exact add_block_entries _ b hne

/-- Witness for C4 amended after the single block `"A"`. -/
theorem c4_witness :
    (([1], 1, 0) : FTEntry) ∈ ((["A"] : List String).foldl add_block
        (EMA.mkFresh 10 50 2 5 5)).frequency_table ∧
    ((([1], 1, 0) : FTEntry).2.1 = timesGenerated [1]
        (replaySubsLists ((["A"] : List String).foldl add_block
          (EMA.mkFresh 10 50 2 5 5))) ∧
      (([1], 1, 0) : FTEntry).2.2 = lastGenerated [1]
        (replaySubsLists ((["A"] : List String).foldl add_block
          (EMA.mkFresh 10 50 2 5 5)))) :=
  ⟨by decide, c4_amended 10 50 2 5 5 ["A"] ([1], 1, 0) (by decide)⟩

/-! Persistence: save_containers / load_containers. -/

/-- State of one persisted JSON artifact: absent, unparseable, or parsed. -/
inductive FileState (α : Type) where
  | missing : FileState α
  | malformed : FileState α
  | valid : α → FileState α
deriving DecidableEq

/-- The persisted artifacts of a containers directory, one per container
in the order `load_containers` reads them, plus the config artifact that
`save_containers` writes but `load_containers` never reads.  JSON turns
the integer keys of `number_to_name` into decimal strings, modelled as
`Nat.digits 10`; frequency-table keys, serialized by Python as
`str(list(key))` and parsed back with `ast.literal_eval`, are modelled by
the key list itself. -/
structure LoadDir where
  name_to_number_f : FileState (List (PyName × Nat))
  number_to_name_f : FileState (List (List Nat × PyName))
  next_number_f : FileState Nat
  recent_blocks_f : FileState (List (List Nat))
  frequency_table_f : FileState (List FTEntry)
  all_blocks_f : FileState (List String)
  current_block_index_f : FileState Nat
  recent_subsequences_f : FileState (List (List (List Nat)))
  recent_single_tools_f : FileState (List PyName)
  config_f : FileState (Nat × Nat × Nat × Nat × Nat)

/-- `EMA.save_containers` (lines 329-404): write every container (always
parseable on re-read). -/
def save_containers (s : EMAState) : LoadDir :=
  { name_to_number_f := .valid s.name_to_number,
    number_to_name_f :=
      .valid (s.number_to_name.map (fun p => (Nat.digits 10 p.1, p.2))),
    next_number_f := .valid s.next_number,
    recent_blocks_f := .valid s.recent_blocks,
    frequency_table_f := .valid s.frequency_table,
    all_blocks_f := .valid s.all_blocks,
    current_block_index_f := .valid s.current_block_index,
    recent_subsequences_f := .valid s.recent_subsequences,
    recent_single_tools_f := .valid s.recent_single_tools,
    config_f := .valid (s.k, s.t, s.nr, s.nf, s.ns) }

/-- One artifact read: a missing file keeps the current value, a valid
file decodes, a malformed file raises (aborting the surrounding `try`). -/
def loadStep (fs : FileState α) (cur : β) (dec : α → β) : Option β :=
  match fs with
  | .missing => some cur
  | .malformed => none
  | .valid a => some (dec a)

/-- `EMA.load_containers` (lines 406-502): read the nine artifacts in
order inside one `try`; the first malformed file aborts the rest (already
loaded containers keep their new values) and returns `false`.  The config
artifact is never read. -/
def load_containers (s : EMAState) (dir : LoadDir) : EMAState × Bool :=
  match loadStep dir.name_to_number_f s.name_to_number id with
  | none => (s, false)
  | some v1 =>
    let s := { s with name_to_number := v1 }
    match loadStep dir.number_to_name_f s.number_to_name
        (fun l => l.map (fun p => (Nat.ofDigits 10 p.1, p.2))) with
    | none => (s, false)
    | some v2 =>
      let s := { s with number_to_name := v2 }
      match loadStep dir.next_number_f s.next_number id with
      | none => (s, false)
      | some v3 =>
        let s := { s with next_number := v3 }
        match loadStep dir.recent_blocks_f s.recent_blocks (dequeTrunc s.k) with
        | none => (s, false)
        | some v4 =>
          let s := { s with recent_blocks := v4 }
          match loadStep dir.frequency_table_f s.frequency_table id with
          | none => (s, false)
          | some v5 =>
            let s := { s with frequency_table := v5 }
            match loadStep dir.all_blocks_f s.all_blocks id with
            | none => (s, false)
            | some v6 =>
              let s := { s with all_blocks := v6 }
              match loadStep dir.current_block_index_f s.current_block_index id with
              | none => (s, false)
              | some v7 =>
                let s := { s with current_block_index := v7 }
                match loadStep dir.recent_subsequences_f s.recent_subsequences
                    (dequeTrunc s.k) with
                | none => (s, false)
                | some v8 =>
                  let s := { s with recent_subsequences := v8 }
                  match loadStep dir.recent_single_tools_f s.recent_single_tools
                      (dequeTrunc (s.ns * 10)) with
                  | none => (s, false)
                  | some v9 => ({ s with recent_single_tools := v9 }, true)

theorem dequeTrunc_of_le (cap : Nat) {xs : List α} (h : xs.length ≤ cap) :
    dequeTrunc cap xs = xs := by
  unfold dequeTrunc
  rw [if_neg (by omega)]

theorem digits_key_roundtrip (l : List (Nat × PyName)) :
    (l.map (fun p => (Nat.digits 10 p.1, p.2))).map
      (fun p => (Nat.ofDigits 10 p.1, p.2)) = l := by
  rw [List.map_map]
  have h : ((fun p : List Nat × PyName => ((Nat.ofDigits 10 p.1 : ℕ), p.2)) ∘
      (fun p : Nat × PyName => (Nat.digits 10 p.1, p.2))) = id := by
    funext p
    simp [Nat.ofDigits_digits]
  rw [h, List.map_id]

theorem load_save_eq (s0 st : EMAState)
    (hk : st.k = s0.k) (ht : st.t = s0.t) (hnr : st.nr = s0.nr)
    (hnf : st.nf = s0.nf) (hns : st.ns = s0.ns)
    (h1 : st.recent_blocks.length ≤ s0.k)
    (h2 : st.recent_subsequences.length ≤ s0.k)
    (h3 : st.recent_single_tools.length ≤ s0.ns * 10) :
    load_containers s0 (save_containers st) = (st, true) := by
  obtain ⟨k0, t0, nr0, nf0, ns0, m10, m20, nn0, rb0, ft0, ab0, ci0, rs0, rst0⟩ := s0
  obtain ⟨kS, tS, nrS, nfS, nsS, m1S, m2S, nnS, rbS, ftS, abS, ciS, rsS, rstS⟩ := st
  simp only at hk ht hnr hnf hns h1 h2 h3
  subst hk ht hnr hnf hns
  simp only [load_containers, save_containers, loadStep]
  rw [digits_key_roundtrip, dequeTrunc_of_le _ h1, dequeTrunc_of_le _ h2,
    dequeTrunc_of_le _ h3]
  simp only [id_eq]

theorem dequeAppend_length_le (cap : Nat) (xs : List α) (x : α)
    (h : xs.length ≤ cap) : (dequeAppend cap xs x).length ≤ cap := by
  simp only [dequeAppend]
  split
  · rw [List.length_drop]
    omega
  · rename_i hlt
    rw [List.length_append] at hlt ⊢
    simp at hlt ⊢
    omega

theorem singleToolFold_length_le (cap : Nat) (names : List PyName) :
    ∀ {buf : List PyName}, buf.length ≤ cap →
    (names.foldl (fun buf name =>
        dequeAppend cap (if name ∈ buf then buf.erase name else buf) name)
      buf).length ≤ cap := by
  induction names with
  | nil => intro buf h; exact h
  | cons name names ih =>
    intro buf h
    refine ih ?_
    refine dequeAppend_length_le cap _ name ?_
    split
    · rw [List.length_erase]
      split <;> omega
    · exact h

theorem add_block_caps (s : EMAState) (b : String)
    (h1 : s.recent_blocks.length ≤ s.k) (h2 : s.recent_subsequences.length ≤ s.k)
    (h3 : s.recent_single_tools.length ≤ s.ns * 10) :
    (add_block s b).recent_blocks.length ≤ (add_block s b).k ∧
    (add_block s b).recent_subsequences.length ≤ (add_block s b).k ∧
    (add_block s b).recent_single_tools.length ≤ (add_block s b).ns * 10 := by
  simp only [add_block, block_to_sequence]
  split
  · exact ⟨h1, h2, h3⟩
  · split <;>
      refine ⟨?_, ?_, ?_⟩ <;>
      simp only [evict_keeps_k, evict_keeps_ns, evict_keeps_recent_blocks,
        evict_keeps_recent_subsequences, evict_keeps_recent_single_tools,
        update_keeps_k, update_keeps_ns, update_keeps_recent_blocks,
        update_keeps_recent_subsequences, update_keeps_recent_single_tools,
        bseq_keeps_k, bseq_keeps_ns, bseq_keeps_recent_blocks,
        bseq_keeps_recent_subsequences, bseq_keeps_recent_single_tools] <;>
      first
        | exact dequeAppend_length_le _ _ _ h1
        | exact dequeAppend_length_le _ _ _ h2
        | exact singleToolFold_length_le _ _ h3

theorem fold_params (blocks : List String) : ∀ (s : EMAState),
    (blocks.foldl add_block s).k = s.k ∧ (blocks.foldl add_block s).t = s.t ∧
    (blocks.foldl add_block s).nr = s.nr ∧ (blocks.foldl add_block s).nf = s.nf ∧
    (blocks.foldl add_block s).ns = s.ns := by
  induction blocks with
  | nil => intro s; exact ⟨rfl, rfl, rfl, rfl, rfl⟩
  | cons b bs ih =>
    intro s
    obtain ⟨hk, ht, hnr, hnf, hns⟩ := ih (add_block s b)
    rw [List.foldl_cons]
    simp [hk, ht, hnr, hnf, hns]

theorem fold_caps (blocks : List String) : ∀ (s : EMAState),
    s.recent_blocks.length ≤ s.k → s.recent_subsequences.length ≤ s.k →
    s.recent_single_tools.length ≤ s.ns * 10 →
    (blocks.foldl add_block s).recent_blocks.length ≤ (blocks.foldl add_block s).k ∧
    (blocks.foldl add_block s).recent_subsequences.length ≤ (blocks.foldl add_block s).k ∧
    (blocks.foldl add_block s).recent_single_tools.length
      ≤ (blocks.foldl add_block s).ns * 10 := by
  induction blocks with
  | nil => intro s ha hb hc; exact ⟨ha, hb, hc⟩
  | cons b bs ih =>
    intro s ha hb hc
    obtain ⟨ha2, hb2, hc2⟩ := add_block_caps s b ha hb hc
    rw [List.foldl_cons]
    exact ih (add_block s b) ha2 hb2 hc2

/-- C7: saving every container and loading it back into a freshly
constructed instance with the same parameters reproduces the state
exactly — in particular the two symbol maps, the recency window, the
frequency table, the block history, the block index, the recency
subsequence cache and the single-tool buffer — and reports success. -/
theorem c7_roundtrip (k t nr nf ns : Nat) (blocks : List String) :
    load_containers (EMA.mkFresh k t nr nf ns)
        (save_containers (blocks.foldl add_block (EMA.mkFresh k t nr nf ns)))
      = (blocks.foldl add_block (EMA.mkFresh k t nr nf ns), true) := by
  obtain ⟨hk, ht, hnr, hnf, hns⟩ := fold_params blocks (EMA.mkFresh k t nr nf ns)
  obtain ⟨h1, h2, h3⟩ := fold_caps blocks (EMA.mkFresh k t nr nf ns)
    (by simp [EMA.mkFresh]) (by simp [EMA.mkFresh]) (by simp [EMA.mkFresh])
  refine load_save_eq _ _ hk ht hnr hnf hns ?_ ?_ ?_
  · rw [hk] at h1
    exact h1
  · rw [hk] at h2
    exact h2
  · rw [hns] at h3
    exact h3

/-- Modelled from the claim's words for C9: a missing or malformed file
only skips its own container, every other container still loads. -/
def claimLoad (s : EMAState) (dir : LoadDir) : EMAState :=
  { s with
    name_to_number :=
      (match dir.name_to_number_f with
        | .valid a => a
        | _ => s.name_to_number),
    number_to_name :=
      (match dir.number_to_name_f with
        | .valid a => a.map (fun p => (Nat.ofDigits 10 p.1, p.2))
        | _ => s.number_to_name),
    next_number :=
      (match dir.next_number_f with
        | .valid a => a
        | _ => s.next_number),
    recent_blocks :=
      (match dir.recent_blocks_f with
        | .valid a => dequeTrunc s.k a
        | _ => s.recent_blocks),
    frequency_table :=
      (match dir.frequency_table_f with
        | .valid a => a
        | _ => s.frequency_table),
    all_blocks :=
      (match dir.all_blocks_f with
        | .valid a => a
        | _ => s.all_blocks),
    current_block_index :=
      (match dir.current_block_index_f with
        | .valid a => a
        | _ => s.current_block_index),
    recent_subsequences :=
      (match dir.recent_subsequences_f with
        | .valid a => dequeTrunc s.k a
        | _ => s.recent_subsequences),
    recent_single_tools :=
      (match dir.recent_single_tools_f with
        | .valid a => dequeTrunc (s.ns * 10) a
        | _ => s.recent_single_tools) }

/-- A directory whose first artifact is malformed while a later one is
valid. -/
def c9dir : LoadDir :=
  { name_to_number_f := .malformed,
    number_to_name_f := .missing,
    next_number_f := .valid 42,
    recent_blocks_f := .missing,
    frequency_table_f := .missing,
    all_blocks_f := .missing,
    current_block_index_f := .missing,
    recent_subsequences_f := .missing,
    recent_single_tools_f := .missing,
    config_f := .missing }

/-- Counterexample to C9 as stated: with `name_to_number.json` malformed,
`load_containers` abandons the remaining containers — `next_number` stays
at its default 1 although its own file is valid and holds 42 — so loading
does not continue past a malformed file as the claim says. -/
theorem c9_counterexample :
    (load_containers (EMA.mkFresh 10 50 2 5 5) c9dir).1.next_number = 1 ∧
    (claimLoad (EMA.mkFresh 10 50 2 5 5) c9dir).next_number = 42 ∧
    (load_containers (EMA.mkFresh 10 50 2 5 5) c9dir).1
      ≠ claimLoad (EMA.mkFresh 10 50 2 5 5) c9dir := by
  refine ⟨rfl, rfl, ?_⟩
  decide

/-- Whether an artifact is unparseable. -/
def isMalformed : FileState α → Bool
  | .malformed => true
  | _ => false

/-- Position (0-8) of the first malformed artifact in load order, 9 when
every artifact parses. -/
def firstBad (dir : LoadDir) : Nat :=
  if isMalformed dir.name_to_number_f then 0
  else if isMalformed dir.number_to_name_f then 1
  else if isMalformed dir.next_number_f then 2
  else if isMalformed dir.recent_blocks_f then 3
  else if isMalformed dir.frequency_table_f then 4
  else if isMalformed dir.all_blocks_f then 5
  else if isMalformed dir.current_block_index_f then 6
  else if isMalformed dir.recent_subsequences_f then 7
  else if isMalformed dir.recent_single_tools_f then 8
  else 9

/-- Load one container only when its position is before the first
malformed artifact (valid decodes, missing keeps the current value). -/
def applyIf (b : Bool) (fs : FileState α) (cur : β) (dec : α → β) : β :=
  if b then
    match fs with
    | .valid a => dec a
    | _ => cur
  else cur

/-- The amended C9 semantics, written from the amended claim's words:
containers strictly before the first malformed artifact are loaded, with
missing files skipped individually; containers from the first malformed
artifact on keep their current values; the aggregate flag is true exactly
when no artifact is malformed.  No exception escapes. -/
def loadAmendedSpec (s : EMAState) (dir : LoadDir) : EMAState × Bool :=
  ({ s with
     name_to_number := applyIf (decide (0 < firstBad dir)) dir.name_to_number_f
       s.name_to_number id,
     number_to_name := applyIf (decide (1 < firstBad dir)) dir.number_to_name_f
       s.number_to_name (fun l => l.map (fun p => (Nat.ofDigits 10 p.1, p.2))),
     next_number := applyIf (decide (2 < firstBad dir)) dir.next_number_f
       s.next_number id,
     recent_blocks := applyIf (decide (3 < firstBad dir)) dir.recent_blocks_f
       s.recent_blocks (dequeTrunc s.k),
     frequency_table := applyIf (decide (4 < firstBad dir)) dir.frequency_table_f
       s.frequency_table id,
     all_blocks := applyIf (decide (5 < firstBad dir)) dir.all_blocks_f
       s.all_blocks id,
     current_block_index := applyIf (decide (6 < firstBad dir))
       dir.current_block_index_f s.current_block_index id,
     recent_subsequences := applyIf (decide (7 < firstBad dir))
       dir.recent_subsequences_f s.recent_subsequences (dequeTrunc s.k),
     recent_single_tools := applyIf (decide (8 < firstBad dir))
       dir.recent_single_tools_f s.recent_single_tools (dequeTrunc (s.ns * 10)) },
   decide (firstBad dir = 9))

theorem loadStep_of_not_mal (fs : FileState α) (h : isMalformed fs = false)
    (cur : β) (dec : α → β) :
    loadStep fs cur dec = some (applyIf true fs cur dec) := by
  cases fs with
  | missing => rfl
  | malformed => simp [isMalformed] at h
  | valid a => rfl

theorem eq_malformed_of (fs : FileState α) (h : isMalformed fs = true) :
    fs = FileState.malformed := by
  cases fs with
  | missing => simp [isMalformed] at h
  | malformed => rfl
  | valid a => simp [isMalformed] at h

theorem loadStep_malformed (cur : β) (dec : α → β) :
    loadStep (FileState.malformed : FileState α) cur dec = none := rfl

theorem isMalformed_malformed :
    isMalformed (FileState.malformed : FileState α) = true := rfl

/-- C9 amended: on load, a missing artifact only skips its own container
and loading continues; a malformed artifact stops loading there — its
container and every later one keep their current values — and the
function returns the aggregate flag false instead of raising. -/
theorem c9_amended (s : EMAState) (dir : LoadDir) :
    load_containers s dir = loadAmendedSpec s dir := by
  obtain ⟨f1, f2, f3, f4, f5, f6, f7, f8, f9, f10⟩ := dir
  cases h1 : isMalformed f1 with
  | true =>
    obtain rfl := eq_malformed_of _ h1
    simp [load_containers, loadAmendedSpec, firstBad, applyIf, loadStep_malformed, isMalformed_malformed]
  | false =>
    cases h2 : isMalformed f2 with
    | true =>
      obtain rfl := eq_malformed_of _ h2
      simp [load_containers, loadAmendedSpec, firstBad, applyIf, loadStep_malformed, isMalformed_malformed, h1, loadStep_of_not_mal f1 h1]
    | false =>
      cases h3 : isMalformed f3 with
      | true =>
        obtain rfl := eq_malformed_of _ h3
        simp [load_containers, loadAmendedSpec, firstBad, applyIf, loadStep_malformed, isMalformed_malformed, h1, h2, loadStep_of_not_mal f1 h1, loadStep_of_not_mal f2 h2]
      | false =>
        cases h4 : isMalformed f4 with
        | true =>
          obtain rfl := eq_malformed_of _ h4
          simp [load_containers, loadAmendedSpec, firstBad, applyIf, loadStep_malformed, isMalformed_malformed, h1, h2, h3, loadStep_of_not_mal f1 h1, loadStep_of_not_mal f2 h2, loadStep_of_not_mal f3 h3]
        | false =>
          cases h5 : isMalformed f5 with
          | true =>
            obtain rfl := eq_malformed_of _ h5
            simp [load_containers, loadAmendedSpec, firstBad, applyIf, loadStep_malformed, isMalformed_malformed, h1, h2, h3, h4, loadStep_of_not_mal f1 h1, loadStep_of_not_mal f2 h2, loadStep_of_not_mal f3 h3, loadStep_of_not_mal f4 h4]
          | false =>
            cases h6 : isMalformed f6 with
            | true =>
              obtain rfl := eq_malformed_of _ h6
              simp [load_containers, loadAmendedSpec, firstBad, applyIf, loadStep_malformed, isMalformed_malformed, h1, h2, h3, h4, h5, loadStep_of_not_mal f1 h1, loadStep_of_not_mal f2 h2, loadStep_of_not_mal f3 h3, loadStep_of_not_mal f4 h4, loadStep_of_not_mal f5 h5]
            | false =>
              cases h7 : isMalformed f7 with
              | true =>
                obtain rfl := eq_malformed_of _ h7
                simp [load_containers, loadAmendedSpec, firstBad, applyIf, loadStep_malformed, isMalformed_malformed, h1, h2, h3, h4, h5, h6, loadStep_of_not_mal f1 h1, loadStep_of_not_mal f2 h2, loadStep_of_not_mal f3 h3, loadStep_of_not_mal f4 h4, loadStep_of_not_mal f5 h5, loadStep_of_not_mal f6 h6]
              | false =>
                cases h8 : isMalformed f8 with
                | true =>
                  obtain rfl := eq_malformed_of _ h8
                  simp [load_containers, loadAmendedSpec, firstBad, applyIf, loadStep_malformed, isMalformed_malformed, h1, h2, h3, h4, h5, h6, h7, loadStep_of_not_mal f1 h1, loadStep_of_not_mal f2 h2, loadStep_of_not_mal f3 h3, loadStep_of_not_mal f4 h4, loadStep_of_not_mal f5 h5, loadStep_of_not_mal f6 h6, loadStep_of_not_mal f7 h7]
                | false =>
                  cases h9 : isMalformed f9 with
                  | true =>
                    obtain rfl := eq_malformed_of _ h9
                    simp [load_containers, loadAmendedSpec, firstBad, applyIf, loadStep_malformed, isMalformed_malformed, h1, h2, h3, h4, h5, h6, h7, h8, loadStep_of_not_mal f1 h1, loadStep_of_not_mal f2 h2, loadStep_of_not_mal f3 h3, loadStep_of_not_mal f4 h4, loadStep_of_not_mal f5 h5, loadStep_of_not_mal f6 h6, loadStep_of_not_mal f7 h7, loadStep_of_not_mal f8 h8]
                  | false =>
                    simp [load_containers, loadAmendedSpec, firstBad, applyIf, h1, h2, h3, h4, h5, h6, h7, h8, h9, loadStep_of_not_mal f1 h1, loadStep_of_not_mal f2 h2, loadStep_of_not_mal f3 h3, loadStep_of_not_mal f4 h4, loadStep_of_not_mal f5 h5, loadStep_of_not_mal f6 h6, loadStep_of_not_mal f7 h7, loadStep_of_not_mal f8 h8, loadStep_of_not_mal f9 h9]
